import Mathlib

/-!
Package govarnam: tokens to suggestions, ranking and transliteration.

A shallow embedding of `govarnam.go` (package `govarnam`) and theorems about it.

Conventions of the embedding.

* Go `int` is the 64-bit two's complement integer: values are `Int`, and every
  arithmetic result is normalised by `wrapInt`.
* Rendered texts (`Suggestion.Word`, symbol values, the virama) are valid UTF-8
  and are `String`s; the typed `word` handed to `Transliterate` is only measured
  and sliced by byte offsets, so it is kept as its byte sequence.
* A run-time panic (index out of range, slice bounds out of range) is `none`.
* Declarations of the package that live in other files (the constants, `Symbol`,
  `Token`, `getSymbolValue`, the tokenizer and the store look-ups) are parameters:
  the constants and `getSymbolValue` are the fields of `Consts`, the answers of
  the symbol table and of the stores are fields of `Varnam`.
* `sort.SliceStable` is the Go standard library routine: insertion sort on blocks
  of 20 elements followed by rounds of `symMerge`.
-/

namespace Govarnam

/-! ## Data model -/

/-- Language rules held by an engine instance: `LangRules`. -/
structure LangRules where
  Virama : String
  IndicDigits : Bool
deriving DecidableEq, Repr

/-- A candidate output: `Suggestion`. -/
structure Suggestion where
  Word : String
  Weight : Int
  LearnedOn : Int
deriving DecidableEq, Repr

/-- The three ranked sequences returned by `Transliterate`. -/
structure TransliterationResult where
  ExactMatch : List Suggestion
  Suggestions : List Suggestion
  GreedyTokenized : List Suggestion
deriving DecidableEq, Repr

/-- One entry of the symbol table: `Symbol`, with the fields read by this file and the
two rendered forms `getSymbolValue` chooses from. -/
structure Symbol where
  generalType : Int
  matchType : Int
  value1 : String
  value2 : String
  weight : Int
  acceptCondition : Int
deriving DecidableEq, Repr

/-- One matched unit of the input word: `Token`. `token` is the ordered list of
matching symbols of a symbol token; `character` is the string the `*string` field
points to, which the tokenizer sets for every character token. -/
structure Token where
  tokenType : Int
  token : List Symbol
  character : String
deriving DecidableEq, Repr

/-- Answer of the learned-word store: `DictionaryResult`. -/
structure DictionaryResult where
  sugs : List Suggestion
  exactMatch : Bool
  longestMatchPosition : Int
deriving DecidableEq, Repr

/-- Answer of the pattern store: `PatternDictionarySuggestion`. -/
structure PatternDictionarySuggestion where
  Sug : Suggestion
  Length : Int
deriving DecidableEq, Repr

/-- The package-level constants and the helper `getSymbolValue`, all declared outside
`govarnam.go`; every definition below takes them as a parameter. -/
structure Consts where
  ZWNJ : String
  VARNAM_SYMBOL_VIRAMA : Int
  VARNAM_MATCH_EXACT : Int
  VARNAM_MATCH_POSSIBILITY : Int
  VARNAM_MATCH_ALL : Int
  VARNAM_TOKEN_CHAR : Int
  VARNAM_TOKEN_SYMBOL : Int
  VARNAM_TOKEN_BASIC_WEIGHT : Int
  VARNAM_TOKEN_ACCEPT_ALL : Int
  VARNAM_TOKEN_ACCEPT_IF_STARTS_WITH : Int
  VARNAM_TOKEN_ACCEPT_IF_IN_BETWEEN : Int
  VARNAM_TOKEN_ACCEPT_IF_ENDS_WITH : Int
  getSymbolValue : Symbol → Int → String

/-- An engine instance: `Varnam`. The two database handles `vstConn` and `dictConn`
are represented by the answers the methods that query them give: `searchSymbol` and
`tokenizeWord` for the symbol table, `getFromDictionary`, `getFromPatternDictionary`
and `getMoreFromDictionary` for the stores, and `tokenizeRestOfWord`; all of these
methods are declared outside `govarnam.go`. -/
structure Varnam where
  searchSymbol : String → Int → List Symbol
  tokenizeWord : List UInt8 → Int → List Token
  getFromDictionary : List Token → DictionaryResult
  getFromPatternDictionary : List UInt8 → List PatternDictionarySuggestion
  getMoreFromDictionary : List Suggestion → List (List Suggestion)
  tokenizeRestOfWord : List UInt8 → List Suggestion → List Suggestion
  LangRules : LangRules
  debug : Bool

/-- Normalisation of an integer to the range of Go `int` (64-bit two's complement). -/
def wrapInt (x : Int) : Int := (x + 2 ^ 63) % 2 ^ 64 - 2 ^ 63

/-! ## `sort.SliceStable` of the Go standard library -/

section StableSort

variable {α : Type}

/-- One run of the inner loop of `insertionSort`: the new element `x` sits right of
the already processed elements, given nearest first in `revPrefix`, and is swapped
leftwards `for j := i; j > a && less(j, j-1); j--`. The result is again nearest
(rightmost) first. -/
def insertLeft (less : α → α → Bool) (x : α) : List α → List α
  | [] => [x]
  | p :: ps => if less x p then p :: insertLeft less x ps else x :: p :: ps

/-- Go `insertionSort(data, a, b)` on the segment `data[a:b]`. -/
def insertionSort (less : α → α → Bool) (seg : List α) : List α :=
  (seg.foldl (fun revPrefix x => insertLeft less x revPrefix) []).reverse

/-- The binary search loop shared by the three searches of `symMerge`:
`for i < j { h := int(uint(i+j) >> 1); if goRight(h) { i = h + 1 } else { j = h } }`,
returning the final `i`. The first argument bounds the number of iterations. -/
def searchLoop (goRight : Nat → Bool) : Nat → Nat → Nat → Nat
  | 0, i, _ => i
  | fuel + 1, i, j =>
    if i < j then
      let h := (i + j) / 2
      if goRight h then searchLoop goRight fuel (h + 1) j else searchLoop goRight fuel i h
    else i

/-- The search of the case `m - a == 1` of `symMerge`, with `x = data[a]` and
`r = data[m:b]`: the lowest index `i` such that `data[i] >= data[a]` for `m <= i < b`,
found with the test `less(h, a)` and given relative to `m`. -/
def insertPointRight (less : α → α → Bool) (x : α) (r : List α) : Nat :=
  searchLoop (fun h => match r[h]? with
    | some e => less e x
    | none => false) r.length 0 r.length

/-- The search of the case `b - m == 1` of `symMerge`, with `y = data[m]` and
`l = data[a:m]`: the lowest index `i` such that `data[i] > data[m]` for `a <= i < m`,
found with the test `!less(m, h)` and given relative to `a`. -/
def insertPointLeft (less : α → α → Bool) (y : α) (l : List α) : Nat :=
  searchLoop (fun h => match l[h]? with
    | some e => !less y e
    | none => false) l.length 0 l.length

/-- The search of the general case of `symMerge`, with `l = data[a:m]` and
`r = data[m:b]`: the final value of `start`, found with the test `!less(p-c, c)`,
relative to `a`. -/
def splitPoint (less : α → α → Bool) (l r : List α) : Nat :=
  let m := l.length
  let b := l.length + r.length
  let mid := b / 2
  let n := mid + m
  let start0 := if m > mid then n - b else 0
  let r0 := if m > mid then mid else m
  let p := n - 1
  searchLoop (fun c => match (l ++ r)[p - c]?, (l ++ r)[c]? with
    | some e, some f => !less e f
    | _, _ => false) b start0 r0

/-- Go `symMerge(data, a, m, b)` where `l = data[a:m]` and `r = data[m:b]`; the result
is the new content of `data[a:b]`. Indices are taken relative to `a`. In the case
`m - a == 1` the swaps move `data[a]` to the position before `i`, in the case
`b - m == 1` they move `data[m]` to the position `i`. In the general case the call of
`rotate(data, start, m, end)` exchanges the blocks `data[start:m]` and `data[m:end]`;
it is skipped when one of the two blocks is empty, where the exchange changes
nothing. The first argument bounds the recursion depth. -/
def symMerge (less : α → α → Bool) : Nat → List α → List α → List α
  | 0, l, r => l ++ r
  | fuel + 1, l, r =>
    match l, r with
    | [x], _ => r.take (insertPointRight less x r) ++ x :: r.drop (insertPointRight less x r)
    | _, [y] => l.take (insertPointLeft less y l) ++ y :: l.drop (insertPointLeft less y l)
    | _, _ =>
      let m := l.length
      let b := l.length + r.length
      let mid := b / 2
      let n := mid + m
      let start := splitPoint less l r
      let e := n - start
      let left1 := l.take start
      let left2 := r.take (e - m)
      let right1 := l.drop start
      let right2 := r.drop (e - m)
      (if 0 < start ∧ start < mid then symMerge less fuel left1 left2 else left1 ++ left2) ++
        (if mid < e ∧ e < b then symMerge less fuel right1 right2 else right1 ++ right2)

/-- The first loop of Go `stable`: `insertionSort` on every block of `blockSize`
elements and on the remaining shorter block. -/
def insertionBlocks (less : α → α → Bool) (blockSize : Nat) : Nat → List α → List α
  | 0, data => data
  | fuel + 1, data =>
    if blockSize ≤ data.length then
      insertionSort less (data.take blockSize) ++
        insertionBlocks less blockSize fuel (data.drop blockSize)
    else insertionSort less data

/-- One round of the second loop of Go `stable`: `symMerge` on every pair of adjacent
blocks, `for b <= n { symMerge(data, a, a+blockSize, b) ... }`, then on the last
block and the shorter rest, `if m := a + blockSize; m < n { symMerge(data, a, m, n) }`. -/
def mergeRound (less : α → α → Bool) (blockSize : Nat) : Nat → List α → List α
  | 0, data => data
  | fuel + 1, data =>
    if 2 * blockSize ≤ data.length then
      symMerge less (2 * blockSize) (data.take blockSize)
          ((data.drop blockSize).take blockSize) ++
        mergeRound less blockSize fuel (data.drop (2 * blockSize))
    else if blockSize < data.length then
      symMerge less data.length (data.take blockSize) (data.drop blockSize)
    else data

/-- The second loop of Go `stable`: `for blockSize < n { ...; blockSize *= 2 }`. -/
def mergeRounds (less : α → α → Bool) : Nat → Nat → List α → List α
  | 0, _, data => data
  | fuel + 1, blockSize, data =>
    if blockSize < data.length then
      mergeRounds less fuel (blockSize * 2) (mergeRound less blockSize data.length data)
    else data

/-- Go `sort.SliceStable(x, less)`, that is `stable(data, n)` with `blockSize := 20`. -/
def sliceStable (less : α → α → Bool) (data : List α) : List α :=
  mergeRounds less data.length 20 (insertionBlocks less 20 data.length data)

/-- The comparator `less` is the strict descending order of the integer key `key`. -/
def KeyOrder (less : α → α → Bool) (key : α → Int) : Prop :=
  ∀ a b, less a b = true ↔ key b < key a

/-- The list is in descending order of `key`. -/
def Desc (key : α → Int) (l : List α) : Prop :=
  l.Pairwise (fun a b => key b ≤ key a)

/-- Every block of `blockSize` elements of the list (the last one may be shorter) is
in descending order of `key`. -/
def BlockSorted (key : α → Int) (blockSize : Nat) (data : List α) : Prop :=
  ∀ k : Nat, Desc key ((data.drop (k * blockSize)).take blockSize)

end StableSort

/-- The comparator handed to `sort.SliceStable` by `sortSuggestions`:
`sugs[i].LearnedOn > sugs[j].LearnedOn || sugs[i].Weight > sugs[j].Weight`. -/
def sortLess (a b : Suggestion) : Bool :=
  decide (a.LearnedOn > b.LearnedOn) || decide (a.Weight > b.Weight)

/-- Go `sortSuggestions`. -/
def sortSuggestions (sugs : List Suggestion) : List Suggestion :=
  sliceStable sortLess sugs

/-! ## The weight engine and the suggestion expander -/

/-- Go `getLastCharacter`: the last character of `input` and its size in bytes; the
empty string and size 0 when there is none. -/
def getLastCharacter (input : String) : String × Nat :=
  match input.data.getLast? with
  | none => ("", 0)
  | some c => (String.singleton c, c.utf8Size)

/-- Go `getNewValueAndWeight`. -/
def getNewValueAndWeight (K : Consts) (varnam : Varnam) (weight : Int) (symbol : Symbol)
    (previousCharacter : String) (tokensLength : Int) (position : Int) : String × Int :=
  let newWeight := wrapInt (weight - symbol.weight + (tokensLength - position) +
    (K.VARNAM_MATCH_POSSIBILITY - symbol.matchType))
  let value :=
    if symbol.generalType = K.VARNAM_SYMBOL_VIRAMA then
      if previousCharacter = varnam.LangRules.Virama then K.ZWNJ
      else K.getSymbolValue symbol position ++ K.ZWNJ
    else K.getSymbolValue symbol position
  (value, newWeight)

/-- The `state` computed for the token at index `i` of `n` tokens. -/
def acceptState (K : Consts) (i n : Nat) : Int :=
  if i = 0 then K.VARNAM_TOKEN_ACCEPT_IF_STARTS_WITH
  else if i + 1 = n then K.VARNAM_TOKEN_ACCEPT_IF_ENDS_WITH
  else K.VARNAM_TOKEN_ACCEPT_IF_IN_BETWEEN

/-- The two `continue` guards of the loops over `t.token`: a symbol survives when
neither `greedy && possibility.matchType == VARNAM_MATCH_POSSIBILITY` nor
`possibility.acceptCondition != VARNAM_TOKEN_ACCEPT_ALL &&
possibility.acceptCondition != state` holds. -/
def survives (K : Consts) (greedy : Bool) (state : Int) (possibility : Symbol) : Bool :=
  !(greedy && decide (possibility.matchType = K.VARNAM_MATCH_POSSIBILITY)) &&
  !(decide (possibility.acceptCondition ≠ K.VARNAM_TOKEN_ACCEPT_ALL) &&
    decide (possibility.acceptCondition ≠ state))

/-- The suggestion created for a surviving symbol of the first token. -/
def firstSuggestion (K : Consts) (part : Bool) (possibility : Symbol) : Suggestion :=
  let value := if part then K.getSymbolValue possibility 1 else K.getSymbolValue possibility 0
  ⟨value, wrapInt (K.VARNAM_TOKEN_BASIC_WEIGHT - possibility.weight), 0⟩

/-- The update in place of `results[j]` by `firstToken := t.token[0]`. -/
def extendInPlace (K : Consts) (varnam : Varnam) (n i : Nat) (firstToken : Symbol)
    (result : Suggestion) : Suggestion :=
  let till := result.Word
  let lastChar := (getLastCharacter till).1
  let nv := getNewValueAndWeight K varnam result.Weight firstToken lastChar n i
  { result with Word := result.Word ++ nv.1, Weight := nv.2 }

/-- The suggestion appended for the symbol `possibility` (of index `k > 0`) and the
suggestion `result` as it was before its update in place. -/
def cloneWith (K : Consts) (varnam : Varnam) (n i : Nat) (result : Suggestion)
    (possibility : Symbol) : Suggestion :=
  let till := result.Word
  let tillWeight := result.Weight
  let lastChar := (getLastCharacter till).1
  let nv := getNewValueAndWeight K varnam tillWeight possibility lastChar n i
  ⟨till ++ nv.1, nv.2, 0⟩

/-- The loop `for j, result := range results` for a symbol token at an index `i > 0`.
The range is over the suggestions present when the loop starts; every one of them
is updated in place with `t.token[0]`, which panics when `t.token` is empty, and
the clones for the surviving symbols of index `k > 0` are appended behind, in the
order of `j` and then of `k`. -/
def extendResults (K : Consts) (varnam : Varnam) (greedy : Bool) (n i : Nat) (t : Token)
    (results : List Suggestion) : Option (List Suggestion) :=
  match results with
  | [] => some []
  | _ :: _ =>
    match t.token with
    | [] => none
    | firstToken :: others =>
      some (results.map (extendInPlace K varnam n i firstToken) ++
        results.flatMap (fun result =>
          (others.filter (survives K greedy (acceptState K i n))).map
            (cloneWith K varnam n i result)))

/-- The body of the loop `for i, t := range tokens` of `tokensToSuggestions`. -/
def tokenStep (K : Consts) (varnam : Varnam) (greedy part : Bool) (n i : Nat) (t : Token)
    (results : List Suggestion) : Option (List Suggestion) :=
  if t.tokenType = K.VARNAM_TOKEN_SYMBOL then
    if i = 0 then
      some (results ++
        (t.token.filter (survives K greedy (acceptState K i n))).map (firstSuggestion K part))
    else extendResults K varnam greedy n i t results
  else if t.tokenType = K.VARNAM_TOKEN_CHAR then
    some (results.map (fun s => { s with Word := s.Word ++ t.character }))
  else some results

/-- The loop `for i, t := range tokens`, started at index `i` with the tokens that
remain; `n` is `len(tokens)`. -/
def tokensLoop (K : Consts) (varnam : Varnam) (greedy part : Bool) (n : Nat) :
    Nat → List Token → List Suggestion → Option (List Suggestion)
  | _, [], results => some results
  | i, t :: rest, results =>
    match tokenStep K varnam greedy part n i t results with
    | none => none
    | some results1 => tokensLoop K varnam greedy part n (i + 1) rest results1

/-- Go `tokensToSuggestions`. -/
def tokensToSuggestions (K : Consts) (varnam : Varnam) (tokens : List Token)
    (greedy part : Bool) : Option (List Suggestion) :=
  tokensLoop K varnam greedy part tokens.length 0 tokens []

/-- Go `setLangRules`; indexing the answer of `searchSymbol` at 0 panics when it is
empty. -/
def setLangRules (K : Consts) (varnam : Varnam) : Option Varnam :=
  match varnam.searchSymbol "~" K.VARNAM_MATCH_EXACT with
  | [] => none
  | s :: _ => some { varnam with LangRules := { Virama := s.value1, IndicDigits := false } }

/-! ## Transliterate -/

/-- Go slice expression `word[k:]` on a string: a panic unless `0 <= k <= len(word)`. -/
def sliceFrom (word : List UInt8) (k : Int) : Option (List UInt8) :=
  if 0 ≤ k ∧ k ≤ word.length then some (word.drop k.toNat) else none

/-- The branch on the answer of the learned-word store: the starting value of
`results`, of `transliterationResult.ExactMatch` and of `triggeredGetMoreFromDict`. -/
def dictionaryStage (varnam : Varnam) (word : List UInt8) (dictSugs : DictionaryResult) :
    Option (List Suggestion × List Suggestion × Bool) :=
  if dictSugs.sugs.length > 0 then
    if dictSugs.exactMatch = false then
      match sliceFrom word (wrapInt (dictSugs.longestMatchPosition + 1)) with
      | none => none
      | some restOfWord => some (varnam.tokenizeRestOfWord restOfWord dictSugs.sugs, [], false)
    else some ([], dictSugs.sugs, true)
  else some ([], [], false)

/-- The loop `for _, match := range patternDictSugs` on the pair of `results` and
`transliterationResult.ExactMatch`. -/
def patternLoop (varnam : Varnam) (word : List UInt8) :
    List PatternDictionarySuggestion → List Suggestion × List Suggestion →
      Option (List Suggestion × List Suggestion)
  | [], acc => some acc
  | m :: rest, (results, exactMatch) =>
    if m.Length < word.length then
      match sliceFrom word m.Length with
      | none => none
      | some restOfWord =>
        patternLoop varnam word rest
          (results ++ varnam.tokenizeRestOfWord restOfWord [m.Sug], exactMatch)
    else if m.Length = word.length then
      patternLoop varnam word rest (results, exactMatch ++ [m.Sug])
    else patternLoop varnam word rest (results ++ [m.Sug], exactMatch)

/-- Go `Transliterate`. The look-ups started as goroutines (`channelGetFromDictionary`,
`channelGetFromPatternDictionary`, `channelTokensToSuggestions` and
`channelGetMoreFromDictionary`, which send the result of the method they are named
after) are joined through their channels in the order of the source; each result
is received exactly once, so the goroutines are their results, and a panic in any
of them ends the program. Debug printing is left out. -/
def Transliterate (K : Consts) (varnam : Varnam) (word : List UInt8) :
    Option TransliterationResult :=
  let tokens := varnam.tokenizeWord word K.VARNAM_MATCH_ALL
  let dictSugs := varnam.getFromDictionary tokens
  let patternDictSugs := varnam.getFromPatternDictionary word
  match tokensToSuggestions K varnam tokens true false with
  | none => none
  | some greedyTokenized =>
    match dictionaryStage varnam word dictSugs with
    | none => none
    | some (results0, exactMatch0, triggeredGetMoreFromDict) =>
      match patternLoop varnam word patternDictSugs (results0, exactMatch0) with
      | none => none
      | some (results1, exactMatch) =>
        let results2 :=
          if triggeredGetMoreFromDict then
            results1 ++ (varnam.getMoreFromDictionary dictSugs.sugs).flatten
          else results1
        let fallback : Option (List Suggestion) :=
          if exactMatch.length = 0 then
            match tokensToSuggestions K varnam tokens false false with
            | none => none
            | some sugs => some (results2 ++ sugs)
          else some results2
        match fallback with
        | none => none
        | some results =>
          some { ExactMatch := sortSuggestions exactMatch
                 Suggestions := sortSuggestions results
                 GreedyTokenized := sortSuggestions greedyTokenized }

/-! ## The suggestion built from a choice of matches -/

/-- The step of `tokensToSuggestions` at the token `t` of index `i`, followed along one
in-progress suggestion (`none` as long as there is none): the suggestion that results
when `choice` is the match applied at `t`. At index 0 it is the suggestion created for
`choice`, at a later index the suggestion extended by `choice`, whose `LearnedOn` is
0; a character token appends its character. -/
def buildStep (K : Consts) (varnam : Varnam) (part : Bool) (n i : Nat) (t : Token)
    (choice : Symbol) (cur : Option Suggestion) : Option Suggestion :=
  if t.tokenType = K.VARNAM_TOKEN_SYMBOL then
    if i = 0 then some (firstSuggestion K part choice)
    else cur.map (fun result => cloneWith K varnam n i result choice)
  else if t.tokenType = K.VARNAM_TOKEN_CHAR then
    cur.map (fun s => { s with Word := s.Word ++ t.character })
  else cur

/-- The steps `buildStep` along the tokens that remain from index `i` on, with one
entry of `choices` per token (the entry of a token that is no symbol token is not
used). -/
def buildLoop (K : Consts) (varnam : Varnam) (part : Bool) (n : Nat) :
    Nat → List Token → List Symbol → Option Suggestion → Option Suggestion
  | _, [], _, cur => cur
  | _, _ :: _, [], _ => none
  | i, t :: ts, c :: cs, cur =>
    buildLoop K varnam part n (i + 1) ts cs (buildStep K varnam part n i t c cur)

/-- The suggestion built from the tokens by applying, at every symbol token, the match
given for it in `choices`. -/
def build (K : Consts) (varnam : Varnam) (part : Bool) (tokens : List Token)
    (choices : List Symbol) : Option Suggestion :=
  buildLoop K varnam part tokens.length 0 tokens choices none

/-- The two suggestions followed along a pair of builds are both absent, or the weight
of the first is the weight of the second plus `d`, up to the wrap of `int`. -/
def WeightShift (d : Int) (cur1 cur2 : Option Suggestion) : Prop :=
  (cur1 = none ∧ cur2 = none) ∨
    ∃ a b, cur1 = some a ∧ cur2 = some b ∧ a.Weight = wrapInt (b.Weight + d) ∧
      -(2 ^ 63) ≤ b.Weight

/-! ## Sample declarations used by the closed examples -/

/-- Modelled from the spec: `getSymbolValue`, declared outside `govarnam.go`; position
0 selects the word-start form `value1`, any other position the mid-word form
`value2`. -/
def sampleSymbolValue (symbol : Symbol) (position : Int) : String :=
  if position = 0 then symbol.value1 else symbol.value2

/-- A sample assignment of the constants: distinct values for the distinct names of
one group, `VARNAM_MATCH_EXACT < VARNAM_MATCH_POSSIBILITY`, and the zero width
non-joiner for `ZWNJ`. -/
def sampleConsts : Consts where
  ZWNJ := "\u200c"
  VARNAM_SYMBOL_VIRAMA := 9
  VARNAM_MATCH_EXACT := 1
  VARNAM_MATCH_POSSIBILITY := 2
  VARNAM_MATCH_ALL := 3
  VARNAM_TOKEN_CHAR := 1
  VARNAM_TOKEN_SYMBOL := 2
  VARNAM_TOKEN_BASIC_WEIGHT := 10
  VARNAM_TOKEN_ACCEPT_ALL := 0
  VARNAM_TOKEN_ACCEPT_IF_STARTS_WITH := 1
  VARNAM_TOKEN_ACCEPT_IF_IN_BETWEEN := 2
  VARNAM_TOKEN_ACCEPT_IF_ENDS_WITH := 3
  getSymbolValue := sampleSymbolValue

/-- The joiner glyph of the sample engine (the Malayalam virama). -/
def sampleJoiner : String := "\u0d4d"

/-- A sample engine whose stores know nothing and whose virama is `sampleJoiner`. -/
def sampleVarnam : Varnam where
  searchSymbol := fun _ _ => []
  tokenizeWord := fun _ _ => []
  getFromDictionary := fun _ => ⟨[], false, 0⟩
  getFromPatternDictionary := fun _ => []
  getMoreFromDictionary := fun _ => []
  tokenizeRestOfWord := fun _ sugs => sugs
  LangRules := ⟨sampleJoiner, false⟩
  debug := false

/-- A symbol token of the sample constants with the given matches. -/
def symbolToken (rules : List Symbol) : Token := ⟨2, rules, ""⟩

/-- The ordinary sample rule rendering `value` everywhere: consonant kind, exact match,
accepted at any position. -/
def plainRule (value : String) (weight : Int) : Symbol := ⟨2, 1, value, value, weight, 0⟩

/-- The sample virama rule: rendered as the joiner glyph, weight 0, exact match,
accepted at any position. -/
def viramaRule : Symbol := ⟨9, 1, sampleJoiner, sampleJoiner, 0, 0⟩

/-- A sample engine for the word `a~a`: the symbol table answers the look-up of `~`
with the virama rule and tokenizes every word into the three single-match symbol
tokens of `a`, `~`, `a`; the stores know nothing. -/
def exampleVarnam : Varnam :=
  { sampleVarnam with
    searchSymbol := fun _ _ => [viramaRule]
    tokenizeWord := fun _ _ =>
      [symbolToken [plainRule "x" 1], symbolToken [viramaRule], symbolToken [plainRule "x" 1]] }

/-- A sample engine whose pattern store answers every look-up with one match, the
suggestion `k` for a pattern of length 1. -/
def patternVarnam : Varnam :=
  { sampleVarnam with getFromPatternDictionary := fun _ => [⟨⟨"k", 0, 0⟩, 1⟩] }

/-! ## Notions used to state the properties of the weight and of the merge -/

/-- The integer lies in the range of Go `int`. -/
def InIntRange (x : Int) : Prop := -(2 ^ 63) ≤ x ∧ x < 2 ^ 63

/-- The weight formula in the words of the specification, over the integers:
`baseWeight - rule.weight + (totalTokens - position) +
(POSSIBILITY_PENALTY - matchKindOrdinal(rule))`. -/
def weightFormula (K : Consts) (baseWeight : Int) (rule : Symbol) (totalTokens position : Int) :
    Int :=
  baseWeight - rule.weight + (totalTokens - position) +
    (K.VARNAM_MATCH_POSSIBILITY - rule.matchType)

/-- What the matches of the pattern store add to `results`, in the words of the
specification: a match shorter than the word adds the expansion of the rest of the
word seeded with its suggestion, a match as long as the word adds nothing, a longer
match adds its suggestion. -/
def patternResults (varnam : Varnam) (word : List UInt8)
    (found : List PatternDictionarySuggestion) : List Suggestion :=
  found.flatMap (fun m =>
    if m.Length < word.length then varnam.tokenizeRestOfWord (word.drop m.Length.toNat) [m.Sug]
    else if m.Length = word.length then []
    else [m.Sug])

/-- What the matches of the pattern store add to `ExactMatch`, in the words of the
specification: the suggestions of the matches that are as long as the word. -/
def patternExact (word : List UInt8) (found : List PatternDictionarySuggestion) :
    List Suggestion :=
  (found.filter (fun m => decide (m.Length = (word.length : Int)))).map (fun m => m.Sug)

/-- The suggestion with `c` added to its weight. -/
def shiftWeight (c : Int) (s : Suggestion) : Suggestion :=
  { s with Weight := s.Weight + c }

/-- The suggestion with `c` added to its weight in `int` arithmetic. -/
def wrapShift (c : Int) (s : Suggestion) : Suggestion :=
  { s with Weight := wrapInt (s.Weight + c) }

/-- The sum of the terms `(tokensLength - position)` met by one suggestion along the
tokens that remain from index `i` on: one term for every symbol token that is not
the first token. -/
def positionalConstantFrom (K : Consts) (n : Nat) : Nat → List Token → Int
  | _, [] => 0
  | i, t :: rest =>
    (if t.tokenType = K.VARNAM_TOKEN_SYMBOL ∧ i ≠ 0 then (n : Int) - (i : Int) else 0) +
      positionalConstantFrom K n (i + 1) rest

/-- The sum of the terms `(tokensLength - position)` met by one suggestion of the
expansion of `tokens`. -/
def positionalConstant (K : Consts) (tokens : List Token) : Int :=
  positionalConstantFrom K tokens.length 0 tokens

/-! ## The expander without the positional term -/

/-- `getNewValueAndWeight` with the term `(tokensLength - position)` replaced by 0. -/
def getNewValueAndWeightNoPosition (K : Consts) (varnam : Varnam) (weight : Int)
    (symbol : Symbol) (previousCharacter : String) (position : Int) : String × Int :=
  let newWeight := wrapInt (weight - symbol.weight + 0 +
    (K.VARNAM_MATCH_POSSIBILITY - symbol.matchType))
  let value :=
    if symbol.generalType = K.VARNAM_SYMBOL_VIRAMA then
      if previousCharacter = varnam.LangRules.Virama then K.ZWNJ
      else K.getSymbolValue symbol position ++ K.ZWNJ
    else K.getSymbolValue symbol position
  (value, newWeight)

/-- `extendInPlace` over `getNewValueAndWeightNoPosition`. -/
def extendInPlaceNoPosition (K : Consts) (varnam : Varnam) (i : Nat) (firstToken : Symbol)
    (result : Suggestion) : Suggestion :=
  let till := result.Word
  let lastChar := (getLastCharacter till).1
  let nv := getNewValueAndWeightNoPosition K varnam result.Weight firstToken lastChar i
  { result with Word := result.Word ++ nv.1, Weight := nv.2 }

/-- `cloneWith` over `getNewValueAndWeightNoPosition`. -/
def cloneWithNoPosition (K : Consts) (varnam : Varnam) (i : Nat) (result : Suggestion)
    (possibility : Symbol) : Suggestion :=
  let till := result.Word
  let tillWeight := result.Weight
  let lastChar := (getLastCharacter till).1
  let nv := getNewValueAndWeightNoPosition K varnam tillWeight possibility lastChar i
  ⟨till ++ nv.1, nv.2, 0⟩

/-- `extendResults` over `getNewValueAndWeightNoPosition`. -/
def extendResultsNoPosition (K : Consts) (varnam : Varnam) (greedy : Bool) (n i : Nat)
    (t : Token) (results : List Suggestion) : Option (List Suggestion) :=
  match results with
  | [] => some []
  | _ :: _ =>
    match t.token with
    | [] => none
    | firstToken :: others =>
      some (results.map (extendInPlaceNoPosition K varnam i firstToken) ++
        results.flatMap (fun result =>
          (others.filter (survives K greedy (acceptState K i n))).map
            (cloneWithNoPosition K varnam i result)))

/-- `tokenStep` over `getNewValueAndWeightNoPosition`. -/
def tokenStepNoPosition (K : Consts) (varnam : Varnam) (greedy part : Bool) (n i : Nat)
    (t : Token) (results : List Suggestion) : Option (List Suggestion) :=
  if t.tokenType = K.VARNAM_TOKEN_SYMBOL then
    if i = 0 then
      some (results ++
        (t.token.filter (survives K greedy (acceptState K i n))).map (firstSuggestion K part))
    else extendResultsNoPosition K varnam greedy n i t results
  else if t.tokenType = K.VARNAM_TOKEN_CHAR then
    some (results.map (fun s => { s with Word := s.Word ++ t.character }))
  else some results

/-- `tokensLoop` over `getNewValueAndWeightNoPosition`. -/
def tokensLoopNoPosition (K : Consts) (varnam : Varnam) (greedy part : Bool) (n : Nat) :
    Nat → List Token → List Suggestion → Option (List Suggestion)
  | _, [], results => some results
  | i, t :: rest, results =>
    match tokenStepNoPosition K varnam greedy part n i t results with
    | none => none
    | some results1 => tokensLoopNoPosition K varnam greedy part n (i + 1) rest results1

/-- `tokensToSuggestions` with the term `(tokensLength - position)` of
`getNewValueAndWeight` replaced by 0. -/
def tokensToSuggestionsNoPosition (K : Consts) (varnam : Varnam) (tokens : List Token)
    (greedy part : Bool) : Option (List Suggestion) :=
  tokensLoopNoPosition K varnam greedy part tokens.length 0 tokens []

/-! ## Further sample declarations -/

/-- A sample engine whose pattern store answers every look-up with three matches, of
the lengths 1, 2 and 3; the rest of a word gives back the seeds it is handed. -/
def placementVarnam : Varnam :=
  { sampleVarnam with
    getFromPatternDictionary := fun _ =>
      [⟨⟨"k", 0, 0⟩, 1⟩, ⟨⟨"e", 0, 0⟩, 2⟩, ⟨⟨"l", 0, 0⟩, 3⟩] }

/-! ## Facts about `sort.SliceStable` -/

section SortFacts

variable {α : Type}

theorem searchLoop_spec (goRight : Nat → Bool) :
    ∀ (fuel i j : Nat), i ≤ j → j - i ≤ fuel →
      i ≤ searchLoop goRight fuel i j ∧ searchLoop goRight fuel i j ≤ j ∧
      (searchLoop goRight fuel i j = i ∨
        goRight (searchLoop goRight fuel i j - 1) = true) ∧
      (searchLoop goRight fuel i j = j ∨ goRight (searchLoop goRight fuel i j) = false) := by
  intro fuel
  induction fuel with
  | zero =>
    intro i j hij hf
    have : i = j := by omega
    subst this
    simp [searchLoop]
  | succ fuel ih =>
    intro i j hij hf
    unfold searchLoop
    by_cases hlt : i < j
    · simp only [hlt, if_true]
      by_cases hg : goRight ((i + j) / 2) = true
      · rw [if_pos hg]
        obtain ⟨h1, h2, h3, h4⟩ := ih ((i + j) / 2 + 1) j (by omega) (by omega)
        refine ⟨by omega, h2, ?_, h4⟩
        right
        rcases h3 with h3 | h3
        · rw [h3]; simpa using hg
        · exact h3
      · rw [if_neg hg]
        obtain ⟨h1, h2, h3, h4⟩ := ih i ((i + j) / 2) (by omega) (by omega)
        refine ⟨h1, by omega, h3, ?_⟩
        right
        rcases h4 with h4 | h4
        · rw [h4]; simpa using hg
        · exact h4
    · simp only [hlt, if_false]
      have : i = j := by omega
      subst this
      simp

theorem insertLeft_perm (less : α → α → Bool) (x : α) (rp : List α) :
    (insertLeft less x rp).Perm (x :: rp) := by
  induction rp with
  | nil => simp [insertLeft]
  | cons p ps ih =>
    unfold insertLeft
    by_cases h : less x p = true
    · rw [if_pos h]
      exact (List.Perm.cons p ih).trans (List.Perm.swap x p ps)
    · rw [if_neg h]

theorem insertLeft_asc {less : α → α → Bool} {key : α → Int} (hk : KeyOrder less key)
    (x : α) (rp : List α) (h : rp.Pairwise (fun a b => key a ≤ key b)) :
    (insertLeft less x rp).Pairwise (fun a b => key a ≤ key b) := by
  induction rp with
  | nil => simp [insertLeft]
  | cons p ps ih =>
    unfold insertLeft
    rw [List.pairwise_cons] at h
    by_cases hl : less x p = true
    · rw [if_pos hl]
      rw [List.pairwise_cons]
      refine ⟨?_, ih h.2⟩
      intro b hb
      rcases (List.mem_cons.mp ((insertLeft_perm less x ps).mem_iff.mp hb)) with rfl | hb
      · exact le_of_lt ((hk _ _).mp hl)
      · exact h.1 b hb
    · rw [if_neg hl]
      have hxp : key x ≤ key p := by
        by_contra hc
        exact hl ((hk x p).mpr (lt_of_not_le hc))
      rw [List.pairwise_cons]
      refine ⟨?_, List.pairwise_cons.mpr h⟩
      intro b hb
      rcases List.mem_cons.mp hb with rfl | hb
      · exact hxp
      · exact le_trans hxp (h.1 b hb)

theorem insertionSort_foldl_perm (less : α → α → Bool) (seg : List α) :
    ∀ acc : List α,
      (seg.foldl (fun revPrefix x => insertLeft less x revPrefix) acc).Perm (seg ++ acc) := by
  induction seg with
  | nil => intro acc; simp
  | cons x xs ih =>
    intro acc
    simp only [List.foldl_cons]
    refine (ih _).trans ?_
    refine (List.Perm.append_left xs (insertLeft_perm less x acc)).trans ?_
    simp only [List.cons_append]
    exact (List.perm_middle).trans (List.Perm.refl _)

theorem insertionSort_perm (less : α → α → Bool) (seg : List α) :
    (insertionSort less seg).Perm seg := by
  unfold insertionSort
  refine (List.reverse_perm _).trans ?_
  simpa using insertionSort_foldl_perm less seg []

theorem insertionSort_foldl_asc {less : α → α → Bool} {key : α → Int}
    (hk : KeyOrder less key) (seg : List α) :
    ∀ acc : List α, acc.Pairwise (fun a b => key a ≤ key b) →
      (seg.foldl (fun revPrefix x => insertLeft less x revPrefix) acc).Pairwise
        (fun a b => key a ≤ key b) := by
  induction seg with
  | nil => intro acc h; simpa using h
  | cons x xs ih =>
    intro acc h
    simp only [List.foldl_cons]
    exact ih _ (insertLeft_asc hk x acc h)

theorem insertionSort_desc {less : α → α → Bool} {key : α → Int}
    (hk : KeyOrder less key) (seg : List α) : Desc key (insertionSort less seg) := by
  unfold insertionSort Desc
  rw [List.pairwise_reverse]
  exact insertionSort_foldl_asc hk seg [] List.Pairwise.nil


theorem Desc.getElem?_le {key : α → Int} {l : List α} (h : Desc key l) {i j : Nat} {a b : α}
    (hi : l[i]? = some a) (hj : l[j]? = some b) (hij : i ≤ j) : key b ≤ key a := by
  rcases Nat.eq_or_lt_of_le hij with rfl | hlt
  · rw [hi] at hj
    cases hj
    exact le_refl _
  · obtain ⟨hi1, rfl⟩ := List.getElem?_eq_some.mp hi
    obtain ⟨hj1, rfl⟩ := List.getElem?_eq_some.mp hj
    exact (List.pairwise_iff_getElem.mp h) i j hi1 hj1 hlt

theorem mem_take_getElem? {l : List α} {n : Nat} {a : α} (h : a ∈ l.take n) :
    ∃ i, i < n ∧ l[i]? = some a := by
  obtain ⟨i, hi, rfl⟩ := List.mem_take_iff_getElem.mp h
  exact ⟨i, by omega, List.getElem?_eq_getElem (by omega)⟩

theorem mem_drop_getElem? {l : List α} {n : Nat} {a : α} (h : a ∈ l.drop n) :
    ∃ i, n ≤ i ∧ l[i]? = some a := by
  obtain ⟨i, hi, rfl⟩ := List.mem_drop_iff_getElem.mp h
  exact ⟨n + i, by omega, List.getElem?_eq_getElem (by omega)⟩

theorem Desc.take {key : α → Int} {l : List α} (h : Desc key l) (n : Nat) :
    Desc key (l.take n) :=
  List.Pairwise.sublist (List.take_sublist n l) h

theorem Desc.drop {key : α → Int} {l : List α} (h : Desc key l) (n : Nat) :
    Desc key (l.drop n) :=
  List.Pairwise.sublist (List.drop_sublist n l) h

theorem Desc.take_drop {key : α → Int} {l : List α} (h : Desc key l) (n : Nat) :
    ∀ a ∈ l.take n, ∀ b ∈ l.drop n, key b ≤ key a := by
  intro a ha b hb
  obtain ⟨i, hi, hia⟩ := mem_take_getElem? ha
  obtain ⟨j, hj, hjb⟩ := mem_drop_getElem? hb
  exact h.getElem?_le hia hjb (by omega)

theorem insertPointRight_spec {less : α → α → Bool} {key : α → Int} (hk : KeyOrder less key)
    (x : α) {r : List α} (hr : Desc key r) :
    (∀ a ∈ r.take (insertPointRight less x r), key x ≤ key a) ∧
    (∀ b ∈ r.drop (insertPointRight less x r), key b ≤ key x) := by
  obtain ⟨-, h2, h3, h4⟩ := searchLoop_spec (fun h => match r[h]? with
    | some e => less e x
    | none => false) r.length 0 r.length (Nat.zero_le _) (by omega)
  unfold insertPointRight
  generalize searchLoop _ r.length 0 r.length = s at h2 h3 h4
  constructor
  · intro a ha
    obtain ⟨i, hi, hia⟩ := mem_take_getElem? ha
    rcases h3 with h3 | h3
    · omega
    · cases hse : r[s - 1]? with
      | none => simp [hse] at h3
      | some e =>
        simp only [hse] at h3
        have h1 : key x < key e := (hk e x).mp h3
        have h5 : key e ≤ key a := hr.getElem?_le hia hse (by omega)
        omega
  · intro b hb
    obtain ⟨i, hi, hib⟩ := mem_drop_getElem? hb
    rcases h4 with h4 | h4
    · have := (List.getElem?_eq_some.mp hib).1
      omega
    · have hlt : s < r.length := by
        have := (List.getElem?_eq_some.mp hib).1
        omega
      rw [List.getElem?_eq_getElem hlt] at h4
      simp only at h4
      have h1 : ¬ key x < key r[s] := fun hc => by
        have := (hk r[s] x).mpr hc
        simp [this] at h4
      have h5 : key b ≤ key r[s] := hr.getElem?_le (List.getElem?_eq_getElem hlt) hib hi
      omega

theorem insertPointLeft_spec {less : α → α → Bool} {key : α → Int} (hk : KeyOrder less key)
    (y : α) {l : List α} (hl : Desc key l) :
    (∀ a ∈ l.take (insertPointLeft less y l), key y ≤ key a) ∧
    (∀ b ∈ l.drop (insertPointLeft less y l), key b ≤ key y) := by
  obtain ⟨-, h2, h3, h4⟩ := searchLoop_spec (fun h => match l[h]? with
    | some e => !less y e
    | none => false) l.length 0 l.length (Nat.zero_le _) (by omega)
  unfold insertPointLeft
  generalize searchLoop _ l.length 0 l.length = s at h2 h3 h4
  constructor
  · intro a ha
    obtain ⟨i, hi, hia⟩ := mem_take_getElem? ha
    rcases h3 with h3 | h3
    · omega
    · cases hse : l[s - 1]? with
      | none => simp [hse] at h3
      | some e =>
        simp only [hse, Bool.not_eq_true'] at h3
        have h1 : ¬ key e < key y := fun hc => by
          have := (hk y e).mpr hc
          simp [this] at h3
        have h5 : key e ≤ key a := hl.getElem?_le hia hse (by omega)
        omega
  · intro b hb
    obtain ⟨i, hi, hib⟩ := mem_drop_getElem? hb
    rcases h4 with h4 | h4
    · have := (List.getElem?_eq_some.mp hib).1
      omega
    · have hlt : s < l.length := by
        have := (List.getElem?_eq_some.mp hib).1
        omega
      rw [List.getElem?_eq_getElem hlt] at h4
      simp only [Bool.not_eq_false'] at h4
      have h1 : key l[s] < key y := (hk y l[s]).mp h4
      have h5 : key b ≤ key l[s] := hl.getElem?_le (List.getElem?_eq_getElem hlt) hib hi
      omega

theorem Desc.insert_between {key : α → Int} {l : List α} (h : Desc key l) (x : α) (n : Nat)
    (h1 : ∀ a ∈ l.take n, key x ≤ key a) (h2 : ∀ b ∈ l.drop n, key b ≤ key x) :
    Desc key (l.take n ++ x :: l.drop n) := by
  unfold Desc
  rw [List.pairwise_append]
  refine ⟨h.take n, List.pairwise_cons.mpr ⟨h2, h.drop n⟩, ?_⟩
  intro a ha b hb
  rcases List.mem_cons.mp hb with rfl | hb
  · exact h1 a ha
  · exact h.take_drop n a ha b hb


theorem splitPoint_spec {less : α → α → Bool} {key : α → Int} (hk : KeyOrder less key)
    {l r : List α} (hl : Desc key l) (hr : Desc key r) :
    splitPoint less l r ≤ l.length ∧
    splitPoint less l r ≤ (l.length + r.length) / 2 ∧
    (l.length + r.length) / 2 - splitPoint less l r ≤ r.length ∧
    (∀ a ∈ l.take (splitPoint less l r),
      ∀ b ∈ r.drop ((l.length + r.length) / 2 - splitPoint less l r), key b ≤ key a) ∧
    (∀ a ∈ r.take ((l.length + r.length) / 2 - splitPoint less l r),
      ∀ b ∈ l.drop (splitPoint less l r), key b ≤ key a) := by
  have hspec := searchLoop_spec (fun c =>
    match (l ++ r)[(l.length + r.length) / 2 + l.length - 1 - c]?, (l ++ r)[c]? with
    | some e, some f => !less e f
    | _, _ => false) (l.length + r.length)
    (if l.length > (l.length + r.length) / 2 then
      (l.length + r.length) / 2 + l.length - (l.length + r.length) else 0)
    (if l.length > (l.length + r.length) / 2 then (l.length + r.length) / 2 else l.length)
    (by split <;> omega) (by split <;> omega)
  unfold splitPoint
  simp only at hspec ⊢
  generalize searchLoop _ (l.length + r.length) _ _ = s at hspec
  generalize hmid : (l.length + r.length) / 2 = mid at hspec ⊢
  obtain ⟨h1, h2, h3, h4⟩ := hspec
  have hs1 : s ≤ l.length := by split at h2 <;> omega
  have hs2 : s ≤ mid := by split at h2 <;> omega
  have hs3 : mid - s ≤ r.length := by split at h1 <;> omega
  refine ⟨hs1, hs2, hs3, ?_, ?_⟩
  · intro a ha b hb
    obtain ⟨i, hi, hia⟩ := mem_take_getElem? ha
    obtain ⟨j, hj, hjb⟩ := mem_drop_getElem? hb
    have hjlt := (List.getElem?_eq_some.mp hjb).1
    rcases h3 with h3 | h3
    · split at h3 <;> omega
    · have e1 : (l ++ r)[s - 1]? = l[s - 1]? := List.getElem?_append_left (by omega)
      have e2 : (l ++ r)[mid + l.length - 1 - (s - 1)]? = r[mid - s]? := by
        rw [List.getElem?_append_right (by omega)]
        congr 1
        omega
      rw [e1, e2, List.getElem?_eq_getElem (show s - 1 < l.length by omega),
        List.getElem?_eq_getElem (show mid - s < r.length by omega)] at h3
      simp only [Bool.not_eq_true'] at h3
      have h5 : ¬ key l[s - 1] < key r[mid - s] := fun hc => by
        have := (hk _ _).mpr hc
        simp [this] at h3
      have h6 : key b ≤ key r[mid - s] :=
        hr.getElem?_le (List.getElem?_eq_getElem (by omega)) hjb hj
      have h7 : key l[s - 1] ≤ key a :=
        hl.getElem?_le hia (List.getElem?_eq_getElem (by omega)) (by omega)
      omega
  · intro a ha b hb
    obtain ⟨i, hi, hia⟩ := mem_take_getElem? ha
    obtain ⟨j, hj, hjb⟩ := mem_drop_getElem? hb
    have hjlt := (List.getElem?_eq_some.mp hjb).1
    rcases h4 with h4 | h4
    · split at h4 <;> omega
    · have e1 : (l ++ r)[s]? = l[s]? := List.getElem?_append_left (by omega)
      have e2 : (l ++ r)[mid + l.length - 1 - s]? = r[mid - 1 - s]? := by
        rw [List.getElem?_append_right (by omega)]
        congr 1
        omega
      rw [e1, e2, List.getElem?_eq_getElem (show s < l.length by omega),
        List.getElem?_eq_getElem (show mid - 1 - s < r.length by omega)] at h4
      simp only [Bool.not_eq_false'] at h4
      have h5 : key l[s] < key r[mid - 1 - s] := (hk _ _).mp h4
      have h6 : key b ≤ key l[s] :=
        hl.getElem?_le (List.getElem?_eq_getElem (by omega)) hjb hj
      have h7 : key r[mid - 1 - s] ≤ key a :=
        hr.getElem?_le hia (List.getElem?_eq_getElem (by omega)) (by omega)
      omega


theorem take_drop_exchange_perm (l r : List α) (s k : Nat) :
    ((l.take s ++ r.take k) ++ (l.drop s ++ r.drop k)).Perm (l ++ r) := by
  have e : l.take s ++ (l.drop s ++ (r.take k ++ r.drop k)) = l ++ r := by
    rw [List.take_append_drop k r, ← List.append_assoc, List.take_append_drop]
  rw [← e, List.append_assoc]
  exact List.Perm.append_left _ (List.perm_append_comm_assoc _ _ _)

theorem symMerge_single_left (less : α → α → Bool) (fuel : Nat) (x : α) (r : List α) :
    symMerge less (fuel + 1) [x] r =
      r.take (insertPointRight less x r) ++ x :: r.drop (insertPointRight less x r) := by
  simp [symMerge]

theorem symMerge_single_right (less : α → α → Bool) (fuel : Nat) (l : List α) (y : α)
    (hl : ∀ x, l ≠ [x]) :
    symMerge less (fuel + 1) l [y] =
      l.take (insertPointLeft less y l) ++ y :: l.drop (insertPointLeft less y l) := by
  match l, hl with
  | [], _ => simp [symMerge]
  | [x], hl => exact absurd rfl (hl x)
  | _ :: _ :: _, _ => simp [symMerge]

theorem symMerge_general (less : α → α → Bool) (fuel : Nat) (l r : List α)
    (hl : ∀ x, l ≠ [x]) (hr : ∀ y, r ≠ [y]) :
    symMerge less (fuel + 1) l r =
      (if 0 < splitPoint less l r ∧ splitPoint less l r < (l.length + r.length) / 2 then
          symMerge less fuel (l.take (splitPoint less l r))
            (r.take ((l.length + r.length) / 2 + l.length - splitPoint less l r - l.length))
        else l.take (splitPoint less l r) ++
          r.take ((l.length + r.length) / 2 + l.length - splitPoint less l r - l.length)) ++
      (if (l.length + r.length) / 2 < (l.length + r.length) / 2 + l.length - splitPoint less l r ∧
            (l.length + r.length) / 2 + l.length - splitPoint less l r < l.length + r.length then
          symMerge less fuel (l.drop (splitPoint less l r))
            (r.drop ((l.length + r.length) / 2 + l.length - splitPoint less l r - l.length))
        else l.drop (splitPoint less l r) ++
          r.drop ((l.length + r.length) / 2 + l.length - splitPoint less l r - l.length)) := by
  match l, hl, r, hr with
  | [x], hl, _, _ => exact absurd rfl (hl x)
  | [], _, [y], hr => exact absurd rfl (hr y)
  | _ :: _ :: _, _, [y], hr => exact absurd rfl (hr y)
  | [], _, [], _ => rfl
  | [], _, _ :: _ :: _, _ => rfl
  | _ :: _ :: _, _, [], _ => rfl
  | _ :: _ :: _, _, _ :: _ :: _, _ => rfl

theorem singleton_or_not (l : List α) : (∃ x, l = [x]) ∨ ∀ x, l ≠ [x] := by
  match l with
  | [] => right; intro x h; cases h
  | [x] => exact Or.inl ⟨x, rfl⟩
  | _ :: _ :: _ => right; intro x h; cases h

theorem symMerge_perm (less : α → α → Bool) :
    ∀ (fuel : Nat) (l r : List α), (symMerge less fuel l r).Perm (l ++ r) := by
  intro fuel
  induction fuel with
  | zero => intro l r; simp [symMerge]
  | succ fuel ih =>
    intro l r
    rcases singleton_or_not l with ⟨x, rfl⟩ | hl
    · rw [symMerge_single_left]
      refine List.perm_middle.trans ?_
      simp
    · rcases singleton_or_not r with ⟨y, rfl⟩ | hr
      · rw [symMerge_single_right less fuel l y hl]
        refine List.perm_middle.trans ?_
        simpa using (List.perm_append_singleton y l).symm
      · rw [symMerge_general less fuel l r hl hr]
        refine (List.Perm.append ?_ ?_).trans (take_drop_exchange_perm l r (splitPoint less l r)
          ((l.length + r.length) / 2 + l.length - splitPoint less l r - l.length))
        · split
          · exact ih _ _
          · exact List.Perm.refl _
        · split
          · exact ih _ _
          · exact List.Perm.refl _

theorem symMerge_length (less : α → α → Bool) (fuel : Nat) (l r : List α) :
    (symMerge less fuel l r).length = l.length + r.length := by
  simpa using (symMerge_perm less fuel l r).length_eq

theorem symMerge_desc {less : α → α → Bool} {key : α → Int} (hk : KeyOrder less key) :
    ∀ (fuel : Nat) (l r : List α), l.length + r.length ≤ fuel → Desc key l → Desc key r →
      Desc key (symMerge less fuel l r) := by
  intro fuel
  induction fuel with
  | zero =>
    intro l r hf hl hr
    have h1 : l = [] := List.length_eq_zero.mp (by omega)
    have h2 : r = [] := List.length_eq_zero.mp (by omega)
    subst h1 h2
    simp [symMerge, Desc]
  | succ fuel ih =>
    intro l r hf hl hr
    rcases singleton_or_not l with ⟨x, rfl⟩ | hl1
    · rw [symMerge_single_left]
      obtain ⟨h1, h2⟩ := insertPointRight_spec hk x hr
      exact hr.insert_between x _ h1 h2
    · rcases singleton_or_not r with ⟨y, rfl⟩ | hr1
      · rw [symMerge_single_right less fuel l y hl1]
        obtain ⟨h1, h2⟩ := insertPointLeft_spec hk y hl
        exact hl.insert_between y _ h1 h2
      · rw [symMerge_general less fuel l r hl1 hr1]
        obtain ⟨hs1, hs2, hs3, hc1, hc2⟩ := splitPoint_spec hk hl hr
        generalize splitPoint less l r = s at hs1 hs2 hs3 hc1 hc2 ⊢
        generalize hmid : (l.length + r.length) / 2 = mid at hs1 hs2 hs3 hc1 hc2 ⊢
        have he : mid + l.length - s - l.length = mid - s := by omega
        rw [he]
        unfold Desc
        rw [List.pairwise_append]
        refine ⟨?_, ?_, ?_⟩
        · split
          · exact ih _ _ (by simp; omega) (hl.take s) (hr.take _)
          · rename_i hcond
            have : s = 0 ∨ s = mid := by omega
            rcases this with h0 | h0
            · subst h0
              simpa using hr.take _
            · subst h0
              simpa using hl.take _
        · split
          · rename_i hcond
            exact ih _ _ (by simp; omega) (hl.drop s) (hr.drop _)
          · rename_i hcond
            have : s = l.length ∨ r.length ≤ mid - s := by omega
            rcases this with h0 | h0
            · subst h0
              simpa using hr.drop _
            · rw [List.drop_eq_nil_of_le h0]
              simpa using hl.drop _
        · intro a ha b hb
          have ha1 : a ∈ l.take s ++ r.take (mid - s) := by
            split at ha
            · exact (symMerge_perm less fuel _ _).mem_iff.mp ha
            · exact ha
          have hb1 : b ∈ l.drop s ++ r.drop (mid - s) := by
            split at hb
            · exact (symMerge_perm less fuel _ _).mem_iff.mp hb
            · exact hb
          rcases List.mem_append.mp ha1 with ha2 | ha2 <;>
            rcases List.mem_append.mp hb1 with hb2 | hb2
          · exact hl.take_drop s a ha2 b hb2
          · exact hc1 a ha2 b hb2
          · exact hc2 a ha2 b hb2
          · exact hr.take_drop _ a ha2 b hb2


theorem Desc.blockSorted {key : α → Int} {l : List α} (h : Desc key l) (blockSize : Nat) :
    BlockSorted key blockSize l :=
  fun k => (h.drop (k * blockSize)).take blockSize

theorem BlockSorted.desc_of_short {key : α → Int} {blockSize : Nat} {l : List α}
    (h : BlockSorted key blockSize l) (hlen : l.length ≤ blockSize) : Desc key l := by
  have h0 := h 0
  simpa [List.take_of_length_le hlen] using h0

theorem BlockSorted.append {key : α → Int} {blockSize : Nat} {front rest : List α}
    (hlen : front.length = blockSize) (hfront : Desc key front)
    (hrest : BlockSorted key blockSize rest) : BlockSorted key blockSize (front ++ rest) := by
  intro k
  cases k with
  | zero => simpa [List.take_left' hlen] using hfront
  | succ k =>
    have e : (k + 1) * blockSize = front.length + k * blockSize := by
      rw [hlen, Nat.succ_mul, Nat.add_comm]
    rw [e, List.drop_append]
    exact hrest k

theorem BlockSorted.drop_blocks {key : α → Int} {blockSize : Nat} {data : List α}
    (h : BlockSorted key blockSize data) (j : Nat) :
    BlockSorted key blockSize (data.drop (j * blockSize)) := by
  intro k
  rw [List.drop_drop, ← Nat.add_mul]
  exact h (j + k)

theorem insertionBlocks_perm (less : α → α → Bool) (blockSize : Nat) :
    ∀ (fuel : Nat) (data : List α), (insertionBlocks less blockSize fuel data).Perm data := by
  intro fuel
  induction fuel with
  | zero => intro data; exact List.Perm.refl _
  | succ fuel ih =>
    intro data
    rw [insertionBlocks]
    split
    · have h := List.Perm.append (insertionSort_perm less (data.take blockSize))
        (ih (data.drop blockSize))
      rwa [List.take_append_drop] at h
    · exact insertionSort_perm less data

theorem insertionBlocks_blockSorted {less : α → α → Bool} {key : α → Int}
    (hk : KeyOrder less key) {blockSize : Nat} (hbs : 0 < blockSize) :
    ∀ (fuel : Nat) (data : List α), data.length ≤ fuel →
      BlockSorted key blockSize (insertionBlocks less blockSize fuel data) := by
  intro fuel
  induction fuel with
  | zero =>
    intro data hlen
    have h1 : data = [] := List.length_eq_zero.mp (by omega)
    subst h1
    intro k
    simp [insertionBlocks, Desc]
  | succ fuel ih =>
    intro data hlen
    rw [insertionBlocks]
    split
    · rename_i hle
      refine BlockSorted.append ?_ (insertionSort_desc hk _) (ih _ (by simp; omega))
      rw [(insertionSort_perm less _).length_eq, List.length_take]
      omega
    · exact (insertionSort_desc hk data).blockSorted blockSize

theorem mergeRound_perm (less : α → α → Bool) (blockSize : Nat) :
    ∀ (fuel : Nat) (data : List α), (mergeRound less blockSize fuel data).Perm data := by
  intro fuel
  induction fuel with
  | zero => intro data; exact List.Perm.refl _
  | succ fuel ih =>
    intro data
    rw [mergeRound]
    split
    · have h := List.Perm.append
        (symMerge_perm less (2 * blockSize) (data.take blockSize)
          ((data.drop blockSize).take blockSize)) (ih (data.drop (2 * blockSize)))
      have e : data.take blockSize ++ (data.drop blockSize).take blockSize ++
          data.drop (2 * blockSize) = data := by
        have e2 : data.drop (2 * blockSize) = (data.drop blockSize).drop blockSize := by
          rw [List.drop_drop]; congr 1; omega
        rw [e2, List.append_assoc, List.take_append_drop, List.take_append_drop]
      rwa [e] at h
    · split
      · have h := symMerge_perm less data.length (data.take blockSize) (data.drop blockSize)
        rwa [List.take_append_drop] at h
      · exact List.Perm.refl _

theorem mergeRound_blockSorted {less : α → α → Bool} {key : α → Int}
    (hk : KeyOrder less key) {blockSize : Nat} (hbs : 0 < blockSize) :
    ∀ (fuel : Nat) (data : List α), data.length ≤ fuel → BlockSorted key blockSize data →
      BlockSorted key (2 * blockSize) (mergeRound less blockSize fuel data) := by
  intro fuel
  induction fuel with
  | zero =>
    intro data hlen _
    have h1 : data = [] := List.length_eq_zero.mp (by omega)
    subst h1
    intro k
    simp [mergeRound, Desc]
  | succ fuel ih =>
    intro data hlen hb
    rw [mergeRound]
    have hb0 : Desc key (data.take blockSize) := by simpa using hb 0
    have hb1 : Desc key ((data.drop blockSize).take blockSize) := by simpa using hb 1
    split
    · rename_i hle
      refine BlockSorted.append ?_ ?_ ?_
      · rw [symMerge_length]
        simp only [List.length_take, List.length_drop]
        omega
      · refine symMerge_desc hk _ _ _ ?_ hb0 hb1
        simp only [List.length_take, List.length_drop]
        omega
      · refine ih _ (by simp; omega) ?_
        exact hb.drop_blocks 2
    · split
      · rename_i hnle hlt
        refine (symMerge_desc hk _ _ _ ?_ hb0 ?_).blockSorted _
        · simp only [List.length_take, List.length_drop]
          omega
        · have e : (data.drop blockSize).take blockSize = data.drop blockSize :=
            List.take_of_length_le (by simp; omega)
          rwa [e] at hb1
      · rename_i hnle hnlt
        exact (hb.desc_of_short (by omega)).blockSorted _

theorem mergeRounds_perm (less : α → α → Bool) :
    ∀ (fuel blockSize : Nat) (data : List α),
      (mergeRounds less fuel blockSize data).Perm data := by
  intro fuel
  induction fuel with
  | zero => intro blockSize data; exact List.Perm.refl _
  | succ fuel ih =>
    intro blockSize data
    rw [mergeRounds]
    split
    · exact (ih _ _).trans (mergeRound_perm less blockSize _ data)
    · exact List.Perm.refl _

theorem mergeRounds_desc {less : α → α → Bool} {key : α → Int} (hk : KeyOrder less key) :
    ∀ (fuel blockSize : Nat) (data : List α), 0 < blockSize →
      data.length ≤ blockSize + fuel → BlockSorted key blockSize data →
      Desc key (mergeRounds less fuel blockSize data) := by
  intro fuel
  induction fuel with
  | zero =>
    intro blockSize data _ hlen hb
    exact hb.desc_of_short (by omega)
  | succ fuel ih =>
    intro blockSize data hbs hlen hb
    rw [mergeRounds]
    split
    · refine ih _ _ (by omega) ?_ ?_
      · rw [(mergeRound_perm less blockSize _ data).length_eq]
        omega
      · rw [Nat.mul_comm]
        exact mergeRound_blockSorted hk hbs _ data (le_refl _) hb
    · exact hb.desc_of_short (by omega)

theorem sliceStable_perm (less : α → α → Bool) (data : List α) :
    (sliceStable less data).Perm data :=
  (mergeRounds_perm less _ _ _).trans (insertionBlocks_perm less 20 _ data)

theorem sliceStable_desc {less : α → α → Bool} {key : α → Int} (hk : KeyOrder less key)
    (data : List α) : Desc key (sliceStable less data) := by
  refine mergeRounds_desc hk _ _ _ (by decide) ?_ ?_
  · rw [(insertionBlocks_perm less 20 _ data).length_eq]
    omega
  · exact insertionBlocks_blockSorted hk (by decide) _ data (le_refl _)


section MapSort

variable {β : Type} (f : β → α) (less : α → α → Bool) (less1 : β → β → Bool)

theorem insertLeft_map (hf : ∀ a b, less (f a) (f b) = less1 a b) (x : β) (rp : List β) :
    insertLeft less (f x) (rp.map f) = (insertLeft less1 x rp).map f := by
  induction rp with
  | nil => rfl
  | cons p ps ih =>
    simp only [List.map_cons, insertLeft, hf]
    split
    · rw [ih, List.map_cons]
    · rfl

theorem insertionSort_map (hf : ∀ a b, less (f a) (f b) = less1 a b) (seg : List β) :
    insertionSort less (seg.map f) = (insertionSort less1 seg).map f := by
  have h : ∀ (seg acc : List β),
      (seg.map f).foldl (fun revPrefix x => insertLeft less x revPrefix) (acc.map f) =
        (seg.foldl (fun revPrefix x => insertLeft less1 x revPrefix) acc).map f := by
    intro seg
    induction seg with
    | nil => intro acc; rfl
    | cons x xs ih =>
      intro acc
      simp only [List.map_cons, List.foldl_cons]
      rw [insertLeft_map f less less1 hf, ih]
  unfold insertionSort
  rw [List.map_reverse, ← h seg []]
  rfl

theorem insertPointRight_map (hf : ∀ a b, less (f a) (f b) = less1 a b) (x : β)
    (r : List β) : insertPointRight less (f x) (r.map f) = insertPointRight less1 x r := by
  unfold insertPointRight
  rw [List.length_map]
  congr 1
  funext h
  rw [List.getElem?_map]
  cases r[h]? <;> simp [hf]

theorem insertPointLeft_map (hf : ∀ a b, less (f a) (f b) = less1 a b) (y : β)
    (l : List β) : insertPointLeft less (f y) (l.map f) = insertPointLeft less1 y l := by
  unfold insertPointLeft
  rw [List.length_map]
  congr 1
  funext h
  rw [List.getElem?_map]
  cases l[h]? <;> simp [hf]

theorem splitPoint_map (hf : ∀ a b, less (f a) (f b) = less1 a b) (l r : List β) :
    splitPoint less (l.map f) (r.map f) = splitPoint less1 l r := by
  unfold splitPoint
  simp only [List.length_map, ← List.map_append]
  congr 1
  funext c
  rw [List.getElem?_map, List.getElem?_map]
  cases (l ++ r)[(l.length + r.length) / 2 + l.length - 1 - c]? <;>
    cases (l ++ r)[c]? <;> simp [hf]

theorem map_ne_singleton {l : List β} (hl : ∀ x, l ≠ [x]) : ∀ y, l.map f ≠ [y] := by
  intro y h
  match l, hl with
  | [], _ => cases h
  | [x], hl => exact hl x rfl
  | _ :: _ :: _, _ => cases h

theorem symMerge_map (hf : ∀ a b, less (f a) (f b) = less1 a b) :
    ∀ (fuel : Nat) (l r : List β),
      symMerge less fuel (l.map f) (r.map f) = (symMerge less1 fuel l r).map f := by
  intro fuel
  induction fuel with
  | zero => intro l r; simp [symMerge]
  | succ fuel ih =>
    intro l r
    rcases singleton_or_not l with ⟨x, rfl⟩ | hl
    · rw [List.map_singleton, symMerge_single_left, symMerge_single_left,
        insertPointRight_map f less less1 hf]
      simp
    · rcases singleton_or_not r with ⟨y, rfl⟩ | hr
      · rw [List.map_singleton, symMerge_single_right less fuel _ _ (map_ne_singleton f hl),
          symMerge_single_right less1 fuel l y hl, insertPointLeft_map f less less1 hf]
        simp
      · rw [symMerge_general less fuel _ _ (map_ne_singleton f hl) (map_ne_singleton f hr),
          symMerge_general less1 fuel l r hl hr, splitPoint_map f less less1 hf]
        simp only [List.length_map, List.map_append, apply_ite (List.map f), ← ih,
          List.map_take, List.map_drop]

theorem insertionBlocks_map (hf : ∀ a b, less (f a) (f b) = less1 a b) (blockSize : Nat) :
    ∀ (fuel : Nat) (data : List β),
      insertionBlocks less blockSize fuel (data.map f) =
        (insertionBlocks less1 blockSize fuel data).map f := by
  intro fuel
  induction fuel with
  | zero => intro data; rfl
  | succ fuel ih =>
    intro data
    rw [insertionBlocks, insertionBlocks]
    simp only [List.length_map, List.map_append, apply_ite (List.map f), ← ih,
      ← insertionSort_map f less less1 hf, List.map_take, List.map_drop]

theorem mergeRound_map (hf : ∀ a b, less (f a) (f b) = less1 a b) (blockSize : Nat) :
    ∀ (fuel : Nat) (data : List β),
      mergeRound less blockSize fuel (data.map f) =
        (mergeRound less1 blockSize fuel data).map f := by
  intro fuel
  induction fuel with
  | zero => intro data; rfl
  | succ fuel ih =>
    intro data
    rw [mergeRound, mergeRound]
    simp only [List.length_map, List.map_append, apply_ite (List.map f), ← ih,
      ← symMerge_map f less less1 hf, List.map_take, List.map_drop]

theorem mergeRounds_map (hf : ∀ a b, less (f a) (f b) = less1 a b) :
    ∀ (fuel blockSize : Nat) (data : List β),
      mergeRounds less fuel blockSize (data.map f) =
        (mergeRounds less1 fuel blockSize data).map f := by
  intro fuel
  induction fuel with
  | zero => intro blockSize data; rfl
  | succ fuel ih =>
    intro blockSize data
    rw [mergeRounds, mergeRounds]
    simp only [List.length_map, apply_ite (List.map f), ← ih,
      ← mergeRound_map f less less1 hf]

theorem sliceStable_map (hf : ∀ a b, less (f a) (f b) = less1 a b) (data : List β) :
    sliceStable less (data.map f) = (sliceStable less1 data).map f := by
  unfold sliceStable
  rw [List.length_map, insertionBlocks_map f less less1 hf, mergeRounds_map f less less1 hf]

end MapSort

end SortFacts
/-! ## Ranking: C1, C2 -/

/-- C1, evaluated on the input `[a, b]` with `a = (learnedOn 1, weight 0)` and
`b = (learnedOn 0, weight 1)`: the comparator holds for `(b, a)` through its weight
disjunct, so the sort moves `b` in front of `a`, and `a` ends up behind a suggestion
with a strictly smaller `LearnedOn`. -/
theorem sortSuggestions_recency_order_broken :
    sortSuggestions [⟨"a", 0, 1⟩, ⟨"b", 1, 0⟩] = [⟨"b", 1, 0⟩, ⟨"a", 0, 1⟩] := by
  decide

/-- C2, evaluated on 21 suggestions: `a` and `b` have the same `LearnedOn` 0 and the
same `Weight` 1, `a` is first and `b` last in the input, and the nineteen `c` between
them have `LearnedOn` 1 and `Weight` 0. The output starts with `b` and ends with `a`:
the two equal suggestions have changed their relative order. -/
theorem sortSuggestions_equal_pair_reordered :
    sortSuggestions (⟨"a", 1, 0⟩ :: List.replicate 19 ⟨"c", 0, 1⟩ ++ [⟨"b", 1, 0⟩]) =
      ⟨"b", 1, 0⟩ :: List.replicate 19 ⟨"c", 0, 1⟩ ++ [⟨"a", 1, 0⟩] := by
  decide

/-! ## The unfiltered first symbol of a later token: C3, C4, C6 -/

/-- C3, evaluated with `greedy = true` on two symbol tokens, the second of which has
one match, of match type `VARNAM_MATCH_POSSIBILITY` and rendered `q`: the returned
suggestion `xq` has that possibility match applied. -/
theorem greedy_applies_possibility_first_symbol :
    tokensToSuggestions sampleConsts sampleVarnam
        [symbolToken [plainRule "x" 1],
         symbolToken [{ plainRule "q" 1 with matchType := 2 }]] true false =
      some [⟨"xq", 9, 0⟩] := by
  decide

/-- C4, evaluated on two symbol tokens, the second (and last) of which has one match
whose accept condition is `VARNAM_TOKEN_ACCEPT_IF_STARTS_WITH`, while the state of
that position is `VARNAM_TOKEN_ACCEPT_IF_ENDS_WITH`: the match is applied all the
same, and the returned suggestion is `xq`. -/
theorem first_symbol_skips_accept_condition :
    acceptState sampleConsts 1 2 = 3 ∧
    survives sampleConsts false 3 { plainRule "q" 1 with acceptCondition := 1 } = false ∧
    tokensToSuggestions sampleConsts sampleVarnam
        [symbolToken [plainRule "x" 1],
         symbolToken [{ plainRule "q" 1 with acceptCondition := 1 }]] false false =
      some [⟨"xq", 10, 0⟩] := by
  decide

/-- C6, evaluated on two symbol tokens with one surviving match each (of the two
matches of the second token the first is accepted at the start of a word only): the
product of the numbers of surviving matches is 1, and two suggestions are returned. -/
theorem branch_count_exceeds_product :
    ([plainRule "x" 1].filter (survives sampleConsts false (acceptState sampleConsts 0 2))).length = 1 ∧
    ([{ plainRule "q" 1 with acceptCondition := 1 }, plainRule "y" 1].filter
      (survives sampleConsts false (acceptState sampleConsts 1 2))).length = 1 ∧
    tokensToSuggestions sampleConsts sampleVarnam
        [symbolToken [plainRule "x" 1],
         symbolToken [{ plainRule "q" 1 with acceptCondition := 1 }, plainRule "y" 1]]
        false false =
      some [⟨"xq", 10, 0⟩, ⟨"xy", 10, 0⟩] := by
  decide


/-! ## Greedy subset: C5 -/

theorem survives_of_greedy {K : Consts} {state : Int} {possibility : Symbol}
    (h : survives K true state possibility = true) :
    survives K false state possibility = true := by
  simp only [survives, Bool.true_and, Bool.false_and, Bool.not_false, Bool.and_eq_true] at h ⊢
  exact h.2

theorem extendResults_cons (K : Consts) (varnam : Varnam) (greedy : Bool) (n i : Nat)
    (t : Token) (firstToken : Symbol) (others : List Symbol) (results : List Suggestion)
    (ht : t.token = firstToken :: others) :
    extendResults K varnam greedy n i t results =
      some (results.map (extendInPlace K varnam n i firstToken) ++
        results.flatMap (fun result =>
          (others.filter (survives K greedy (acceptState K i n))).map
            (cloneWith K varnam n i result))) := by
  cases results with
  | nil => simp [extendResults]
  | cons a as => simp [extendResults, ht]

theorem tokenStep_greedy_subset (K : Consts) (varnam : Varnam) (part : Bool) (n i : Nat)
    (t : Token) (hne : t.tokenType = K.VARNAM_TOKEN_SYMBOL → t.token ≠ [])
    (rg rf : List Suggestion) (hsub : ∀ s ∈ rg, s ∈ rf) :
    ∃ g f, tokenStep K varnam true part n i t rg = some g ∧
      tokenStep K varnam false part n i t rf = some f ∧ ∀ s ∈ g, s ∈ f := by
  unfold tokenStep
  by_cases hsym : t.tokenType = K.VARNAM_TOKEN_SYMBOL
  · simp only [hsym, if_true]
    by_cases hi : i = 0
    · simp only [hi, if_true]
      refine ⟨_, _, rfl, rfl, ?_⟩
      intro s hs
      rw [List.mem_append] at hs ⊢
      rcases hs with hs | hs
      · exact Or.inl (hsub s hs)
      · right
        rw [List.mem_map] at hs ⊢
        obtain ⟨p, hp, rfl⟩ := hs
        rw [List.mem_filter] at hp
        exact ⟨p, List.mem_filter.mpr ⟨hp.1, survives_of_greedy hp.2⟩, rfl⟩
    · simp only [hi, if_false]
      obtain ⟨firstToken, others, ht⟩ := List.exists_cons_of_ne_nil (hne hsym)
      rw [extendResults_cons K varnam true n i t firstToken others rg ht,
        extendResults_cons K varnam false n i t firstToken others rf ht]
      refine ⟨_, _, rfl, rfl, ?_⟩
      intro s hs
      rw [List.mem_append] at hs ⊢
      rcases hs with hs | hs
      · left
        rw [List.mem_map] at hs ⊢
        obtain ⟨r, hr, rfl⟩ := hs
        exact ⟨r, hsub r hr, rfl⟩
      · right
        rw [List.mem_flatMap] at hs ⊢
        obtain ⟨r, hr, hs⟩ := hs
        refine ⟨r, hsub r hr, ?_⟩
        rw [List.mem_map] at hs ⊢
        obtain ⟨p, hp, rfl⟩ := hs
        rw [List.mem_filter] at hp
        exact ⟨p, List.mem_filter.mpr ⟨hp.1, survives_of_greedy hp.2⟩, rfl⟩
  · simp only [hsym, if_false]
    by_cases hch : t.tokenType = K.VARNAM_TOKEN_CHAR
    · simp only [hch, if_true]
      refine ⟨_, _, rfl, rfl, ?_⟩
      intro s hs
      rw [List.mem_map] at hs ⊢
      obtain ⟨r, hr, rfl⟩ := hs
      exact ⟨r, hsub r hr, rfl⟩
    · simp only [hch, if_false]
      exact ⟨_, _, rfl, rfl, hsub⟩

theorem tokensLoop_greedy_subset (K : Consts) (varnam : Varnam) (part : Bool) (n : Nat)
    (rest : List Token)
    (hne : ∀ t ∈ rest, t.tokenType = K.VARNAM_TOKEN_SYMBOL → t.token ≠ []) :
    ∀ (i : Nat) (rg rf : List Suggestion), (∀ s ∈ rg, s ∈ rf) →
      ∃ g f, tokensLoop K varnam true part n i rest rg = some g ∧
        tokensLoop K varnam false part n i rest rf = some f ∧ ∀ s ∈ g, s ∈ f := by
  induction rest with
  | nil =>
    intro i rg rf hsub
    exact ⟨rg, rf, rfl, rfl, hsub⟩
  | cons t rest ih =>
    intro i rg rf hsub
    obtain ⟨g1, f1, hg1, hf1, hsub1⟩ :=
      tokenStep_greedy_subset K varnam part n i t (hne t (List.mem_cons_self _ _)) rg rf hsub
    obtain ⟨g, f, hg, hf, hgf⟩ :=
      ih (fun t1 ht1 => hne t1 (List.mem_cons_of_mem _ ht1)) (i + 1) g1 f1 hsub1
    refine ⟨g, f, ?_, ?_, hgf⟩
    · simp only [tokensLoop, hg1]
      exact hg
    · simp only [tokensLoop, hf1]
      exact hf

/-- C5: when every symbol token has at least one match, `tokensToSuggestions` returns
both with `greedy = true` and with `greedy = false`, and every suggestion of the
greedy result (same text, weight and `LearnedOn`) occurs in the full result. -/
theorem greedy_suggestions_subset (K : Consts) (varnam : Varnam) (tokens : List Token)
    (part : Bool)
    (hne : ∀ t ∈ tokens, t.tokenType = K.VARNAM_TOKEN_SYMBOL → t.token ≠ []) :
    ∃ g f, tokensToSuggestions K varnam tokens true part = some g ∧
      tokensToSuggestions K varnam tokens false part = some f ∧ ∀ s ∈ g, s ∈ f :=
  tokensLoop_greedy_subset K varnam part tokens.length tokens hne 0 [] []
    (fun _ hs => hs)

/-- Witness of C5 on a first token with an exact and a possibility match followed by
a token with two matches. -/
theorem greedy_suggestions_subset_witness :
    (∀ t ∈ [symbolToken [plainRule "x" 1, { plainRule "y" 2 with matchType := 2 }],
          symbolToken [plainRule "p" 1, { plainRule "q" 2 with matchType := 2 }]],
        t.tokenType = sampleConsts.VARNAM_TOKEN_SYMBOL → t.token ≠ []) ∧
    ∃ g f, tokensToSuggestions sampleConsts sampleVarnam
        [symbolToken [plainRule "x" 1, { plainRule "y" 2 with matchType := 2 }],
          symbolToken [plainRule "p" 1, { plainRule "q" 2 with matchType := 2 }]]
        true false = some g ∧
      tokensToSuggestions sampleConsts sampleVarnam
        [symbolToken [plainRule "x" 1, { plainRule "y" 2 with matchType := 2 }],
          symbolToken [plainRule "p" 1, { plainRule "q" 2 with matchType := 2 }]]
        false false = some f ∧ ∀ s ∈ g, s ∈ f :=
  ⟨by decide, greedy_suggestions_subset sampleConsts sampleVarnam _ false (by decide)⟩


/-! ## Exact over possibility: C7 -/

theorem wrapInt_add_wrapInt (a c : Int) : wrapInt (wrapInt a + c) = wrapInt (a + c) := by
  unfold wrapInt
  omega

theorem wrapInt_of_range (x : Int) (h1 : -(2 ^ 63) ≤ x) (h2 : x < 2 ^ 63) : wrapInt x = x := by
  unfold wrapInt
  omega

theorem wrapInt_lower (x : Int) : -(2 ^ 63) ≤ wrapInt x := by
  unfold wrapInt
  omega

theorem sortSuggestions_perm (sugs : List Suggestion) : (sortSuggestions sugs).Perm sugs :=
  sliceStable_perm sortLess sugs

theorem sortSuggestions_weight_desc (sugs : List Suggestion) (c : Int)
    (h : ∀ s ∈ sugs, s.LearnedOn = c) :
    (sortSuggestions sugs).Pairwise (fun a b => b.Weight ≤ a.Weight) := by
  have hk : KeyOrder (fun a b : { s : Suggestion // s.LearnedOn = c } =>
      decide (a.val.Weight > b.val.Weight)) (fun a => a.val.Weight) := by
    intro a b
    simp
  have hf : ∀ a b : { s : Suggestion // s.LearnedOn = c },
      sortLess a.val b.val = decide (a.val.Weight > b.val.Weight) := by
    intro a b
    simp [sortLess, a.property, b.property]
  have hd := sliceStable_desc hk (sugs.attachWith _ h)
  have hm := sliceStable_map Subtype.val sortLess _ hf (sugs.attachWith _ h)
  rw [List.attachWith_map_subtype_val] at hm
  unfold sortSuggestions
  rw [hm, List.pairwise_map]
  exact hd

theorem tokenStep_learnedOn_zero (K : Consts) (varnam : Varnam) (greedy part : Bool)
    (n i : Nat) (t : Token) (results results1 : List Suggestion)
    (h : ∀ s ∈ results, s.LearnedOn = 0)
    (hstep : tokenStep K varnam greedy part n i t results = some results1) :
    ∀ s ∈ results1, s.LearnedOn = 0 := by
  unfold tokenStep at hstep
  split at hstep
  · split at hstep
    · cases hstep
      intro s hs
      rcases List.mem_append.mp hs with hs | hs
      · exact h s hs
      · obtain ⟨p, -, rfl⟩ := List.mem_map.mp hs
        rfl
    · unfold extendResults at hstep
      split at hstep
      · cases hstep
        intro s hs
        cases hs
      · split at hstep
        · cases hstep
        · cases hstep
          intro s hs
          rcases List.mem_append.mp hs with hs | hs
          · obtain ⟨r, hr, rfl⟩ := List.mem_map.mp hs
            exact h r hr
          · obtain ⟨r, -, hs⟩ := List.mem_flatMap.mp hs
            obtain ⟨p, -, rfl⟩ := List.mem_map.mp hs
            rfl
  · split at hstep
    · cases hstep
      intro s hs
      obtain ⟨r, hr, rfl⟩ := List.mem_map.mp hs
      exact h r hr
    · cases hstep
      exact h

theorem tokensLoop_learnedOn_zero (K : Consts) (varnam : Varnam) (greedy part : Bool)
    (n : Nat) (rest : List Token) :
    ∀ (i : Nat) (results out : List Suggestion), (∀ s ∈ results, s.LearnedOn = 0) →
      tokensLoop K varnam greedy part n i rest results = some out →
      ∀ s ∈ out, s.LearnedOn = 0 := by
  induction rest with
  | nil =>
    intro i results out h hout
    simp only [tokensLoop] at hout
    cases hout
    exact h
  | cons t rest ih =>
    intro i results out h hout
    simp only [tokensLoop] at hout
    cases hstep : tokenStep K varnam greedy part n i t results with
    | none => simp [hstep] at hout
    | some results1 =>
      simp only [hstep] at hout
      exact ih (i + 1) results1 out
        (tokenStep_learnedOn_zero K varnam greedy part n i t results results1 h hstep) hout

theorem tokensToSuggestions_learnedOn_zero (K : Consts) (varnam : Varnam)
    (tokens : List Token) (greedy part : Bool) (out : List Suggestion)
    (hout : tokensToSuggestions K varnam tokens greedy part = some out) :
    ∀ s ∈ out, s.LearnedOn = 0 :=
  tokensLoop_learnedOn_zero K varnam greedy part tokens.length tokens 0 [] out
    (fun _ hs => by cases hs) hout

theorem buildStep_weightShift (K : Consts) (varnam : Varnam) (part : Bool) (n i : Nat)
    (hi : i ≠ 0) (t : Token) (c : Symbol) (d : Int) (cur1 cur2 : Option Suggestion)
    (h : WeightShift d cur1 cur2) :
    WeightShift d (buildStep K varnam part n i t c cur1)
      (buildStep K varnam part n i t c cur2) := by
  rcases h with ⟨rfl, rfl⟩ | ⟨a, b, rfl, rfl, hw, hb⟩
  · left
    unfold buildStep
    simp [hi]
  · right
    unfold buildStep
    by_cases hsym : t.tokenType = K.VARNAM_TOKEN_SYMBOL
    · simp only [hsym, if_true, hi, if_false, Option.map_some']
      refine ⟨_, _, rfl, rfl, ?_, ?_⟩
      · simp only [cloneWith, getNewValueAndWeight, hw]
        rw [wrapInt_add_wrapInt]
        have e : wrapInt (b.Weight + d) - c.weight + ((n : Int) - (i : Int)) +
            (K.VARNAM_MATCH_POSSIBILITY - c.matchType) =
            wrapInt (b.Weight + d) + (- c.weight + ((n : Int) - (i : Int)) +
            (K.VARNAM_MATCH_POSSIBILITY - c.matchType)) := by ring
        rw [e, wrapInt_add_wrapInt]
        congr 1
        ring
      · exact wrapInt_lower _
    · simp only [hsym, if_false]
      by_cases hch : t.tokenType = K.VARNAM_TOKEN_CHAR
      · simp only [hch, if_true, Option.map_some']
        exact ⟨_, _, rfl, rfl, hw, hb⟩
      · simp only [hch, if_false]
        exact ⟨_, _, rfl, rfl, hw, hb⟩

theorem buildLoop_weightShift (K : Consts) (varnam : Varnam) (part : Bool) (n : Nat)
    (d : Int) (ts : List Token) :
    ∀ (cs : List Symbol) (i : Nat) (cur1 cur2 : Option Suggestion), i ≠ 0 →
      WeightShift d cur1 cur2 →
      WeightShift d (buildLoop K varnam part n i ts cs cur1)
        (buildLoop K varnam part n i ts cs cur2) := by
  induction ts with
  | nil =>
    intro cs i cur1 cur2 _ h
    simpa [buildLoop] using h
  | cons t ts ih =>
    intro cs i cur1 cur2 hi h
    cases cs with
    | nil =>
      left
      simp [buildLoop]
    | cons c cs =>
      simp only [buildLoop]
      exact ih cs (i + 1) _ _ (by omega)
        (buildStep_weightShift K varnam part n i hi t c d cur1 cur2 h)

theorem buildLoop_append (K : Consts) (varnam : Varnam) (part : Bool) (n : Nat)
    (tpre : List Token) :
    ∀ (pre : List Symbol) (i : Nat) (cur : Option Suggestion) (ts : List Token)
      (cs : List Symbol), pre.length = tpre.length →
      buildLoop K varnam part n i (tpre ++ ts) (pre ++ cs) cur =
        buildLoop K varnam part n (i + tpre.length) ts cs
          (buildLoop K varnam part n i tpre pre cur) := by
  induction tpre with
  | nil =>
    intro pre i cur ts cs hlen
    have hp : pre = [] := List.length_eq_zero.mp hlen
    subst hp
    simp [buildLoop]
  | cons t tpre ih =>
    intro pre i cur ts cs hlen
    cases pre with
    | nil => simp at hlen
    | cons c pre =>
      have e := ih pre (i + 1) (buildStep K varnam part n i t c cur) ts cs
        (by simpa using hlen)
      have e2 : i + 1 + tpre.length = i + (tpre.length + 1) := by omega
      rw [e2] at e
      simpa only [List.cons_append, buildLoop, List.length_cons] using e

theorem extendInPlace_eq_cloneWith (K : Consts) (varnam : Varnam) (n i : Nat) (c : Symbol)
    (r : Suggestion) (h : r.LearnedOn = 0) :
    extendInPlace K varnam n i c r = cloneWith K varnam n i r c := by
  simp [extendInPlace, cloneWith, h]

theorem buildLoop_snoc (K : Consts) (varnam : Varnam) (part : Bool) (n : Nat)
    (tpre : List Token) (pre : List Symbol) (t : Token) (c : Symbol)
    (hlen : pre.length = tpre.length) :
    buildLoop K varnam part n 0 (tpre ++ [t]) (pre ++ [c]) none =
      buildStep K varnam part n tpre.length t c (buildLoop K varnam part n 0 tpre pre none) := by
  rw [buildLoop_append K varnam part n tpre pre 0 none [t] [c] hlen]
  simp [buildLoop]

theorem tokenStep_built (K : Consts) (varnam : Varnam) (greedy part : Bool) (n : Nat)
    (tpre : List Token) (t : Token) (results results1 : List Suggestion)
    (hinv : ∀ s ∈ results, s.LearnedOn = 0 ∧ ∃ pre : List Symbol,
      pre.length = tpre.length ∧ buildLoop K varnam part n 0 tpre pre none = some s)
    (hstep : tokenStep K varnam greedy part n tpre.length t results = some results1) :
    ∀ s ∈ results1, s.LearnedOn = 0 ∧ ∃ pre : List Symbol,
      pre.length = (tpre ++ [t]).length ∧
        buildLoop K varnam part n 0 (tpre ++ [t]) pre none = some s := by
  have hzero := tokenStep_learnedOn_zero K varnam greedy part n tpre.length t results
    results1 (fun s hs => (hinv s hs).1) hstep
  intro s hs
  refine ⟨hzero s hs, ?_⟩
  unfold tokenStep at hstep
  by_cases hsym : t.tokenType = K.VARNAM_TOKEN_SYMBOL
  · simp only [hsym, if_true] at hstep
    by_cases hi : tpre.length = 0
    · simp only [hi, if_true] at hstep
      cases hstep
      have hnil : tpre = [] := List.length_eq_zero.mp hi
      subst hnil
      rcases List.mem_append.mp hs with hs | hs
      · obtain ⟨-, pre, hp, hb⟩ := hinv s hs
        have : pre = [] := List.length_eq_zero.mp hp
        subst this
        simp [buildLoop] at hb
      · obtain ⟨p, -, rfl⟩ := List.mem_map.mp hs
        exact ⟨[p], rfl, by simp [buildLoop, buildStep, hsym]⟩
    · simp only [hi, if_false] at hstep
      cases ht : t.token with
      | nil =>
        cases results with
        | nil =>
          simp only [extendResults] at hstep
          cases hstep
          cases hs
        | cons a as => simp [extendResults, ht] at hstep
      | cons firstToken others =>
        rw [extendResults_cons K varnam greedy n _ t firstToken others results ht] at hstep
        cases hstep
        rcases List.mem_append.mp hs with hs | hs
        · obtain ⟨r, hr, rfl⟩ := List.mem_map.mp hs
          obtain ⟨hr0, pre, hp, hb⟩ := hinv r hr
          refine ⟨pre ++ [firstToken], by simp [hp], ?_⟩
          rw [buildLoop_snoc K varnam part n tpre pre t firstToken hp, hb]
          simp [buildStep, hsym, hi, extendInPlace_eq_cloneWith K varnam n _ _ r hr0]
        · obtain ⟨r, hr, hs⟩ := List.mem_flatMap.mp hs
          obtain ⟨p, -, rfl⟩ := List.mem_map.mp hs
          obtain ⟨-, pre, hp, hb⟩ := hinv r hr
          refine ⟨pre ++ [p], by simp [hp], ?_⟩
          rw [buildLoop_snoc K varnam part n tpre pre t p hp, hb]
          simp [buildStep, hsym, hi]
  · simp only [hsym, if_false] at hstep
    by_cases hch : t.tokenType = K.VARNAM_TOKEN_CHAR
    · simp only [hch, if_true] at hstep
      cases hstep
      obtain ⟨r, hr, rfl⟩ := List.mem_map.mp hs
      obtain ⟨-, pre, hp, hb⟩ := hinv r hr
      refine ⟨pre ++ [⟨0, 0, "", "", 0, 0⟩], by simp [hp], ?_⟩
      rw [buildLoop_snoc K varnam part n tpre pre t _ hp, hb, buildStep, if_neg hsym,
        if_pos hch]
      rfl
    · simp only [hch, if_false] at hstep
      cases hstep
      obtain ⟨-, pre, hp, hb⟩ := hinv s hs
      refine ⟨pre ++ [⟨0, 0, "", "", 0, 0⟩], by simp [hp], ?_⟩
      rw [buildLoop_snoc K varnam part n tpre pre t _ hp, hb, buildStep, if_neg hsym,
        if_neg hch]

theorem tokensLoop_built (K : Consts) (varnam : Varnam) (greedy part : Bool) (n : Nat)
    (rest : List Token) :
    ∀ (tpre : List Token) (results out : List Suggestion),
      (∀ s ∈ results, s.LearnedOn = 0 ∧ ∃ pre : List Symbol,
        pre.length = tpre.length ∧ buildLoop K varnam part n 0 tpre pre none = some s) →
      tokensLoop K varnam greedy part n tpre.length rest results = some out →
      ∀ s ∈ out, ∃ choices : List Symbol, choices.length = (tpre ++ rest).length ∧
        buildLoop K varnam part n 0 (tpre ++ rest) choices none = some s := by
  induction rest with
  | nil =>
    intro tpre results out hinv hout
    simp only [tokensLoop] at hout
    cases hout
    intro s hs
    obtain ⟨-, pre, hp, hb⟩ := hinv s hs
    exact ⟨pre, by simpa using hp, by simpa using hb⟩
  | cons t rest ih =>
    intro tpre results out hinv hout
    simp only [tokensLoop] at hout
    cases hstep : tokenStep K varnam greedy part n tpre.length t results with
    | none => simp [hstep] at hout
    | some results1 =>
      simp only [hstep] at hout
      have h1 := tokenStep_built K varnam greedy part n tpre t results results1 hinv hstep
      have h2 := ih (tpre ++ [t]) results1 out h1 (by simpa using hout)
      simpa using h2

theorem tokensToSuggestions_built (K : Consts) (varnam : Varnam) (tokens : List Token)
    (greedy part : Bool) (out : List Suggestion)
    (hout : tokensToSuggestions K varnam tokens greedy part = some out) :
    ∀ s ∈ out, ∃ choices : List Symbol, choices.length = tokens.length ∧
      build K varnam part tokens choices = some s := by
  have h := tokensLoop_built K varnam greedy part tokens.length tokens [] [] out
    (fun _ hs => by cases hs) hout
  simpa [build] using h

theorem build_weight_shift (K : Consts) (varnam : Varnam) (part : Bool)
    (tpre : List Token) (tj : Token) (tpost : List Token) (pre : List Symbol) (R : Symbol)
    (post : List Symbol) (hlen : pre.length = tpre.length) (hpos : tpre ≠ [])
    (hsym : tj.tokenType = K.VARNAM_TOKEN_SYMBOL) :
    WeightShift (K.VARNAM_MATCH_POSSIBILITY - R.matchType)
      (build K varnam part (tpre ++ tj :: tpost) (pre ++ R :: post))
      (build K varnam part (tpre ++ tj :: tpost)
        (pre ++ { R with matchType := K.VARNAM_MATCH_POSSIBILITY } :: post)) := by
  have hj : tpre.length ≠ 0 := fun h => hpos (List.length_eq_zero.mp h)
  unfold build
  rw [buildLoop_append K varnam part _ tpre pre 0 none (tj :: tpost) (R :: post) hlen,
    buildLoop_append K varnam part _ tpre pre 0 none (tj :: tpost)
      ({ R with matchType := K.VARNAM_MATCH_POSSIBILITY } :: post) hlen]
  simp only [buildLoop, Nat.zero_add]
  refine buildLoop_weightShift K varnam part _ _ tpost post _ _ _ (by omega) ?_
  generalize buildLoop K varnam part (tpre ++ tj :: tpost).length 0 tpre pre none = cur0
  unfold buildStep
  simp only [hsym, if_true, hj, if_false]
  cases cur0 with
  | none => exact Or.inl ⟨rfl, rfl⟩
  | some r =>
    right
    refine ⟨_, _, rfl, rfl, ?_, ?_⟩
    · simp only [cloneWith, getNewValueAndWeight]
      rw [wrapInt_add_wrapInt]
      congr 1
      ring
    · exact wrapInt_lower _

/-- C7, evaluated on one symbol token with the matches `R` (exact) and `R` with its
match type set to possibility: both suggestions are returned, each is built from its
match, and both have the weight `VARNAM_TOKEN_BASIC_WEIGHT - R.weight = 9`, so the
suggestion of the exact match has no greater weight. -/
theorem first_token_ignores_match_type :
    tokensToSuggestions sampleConsts sampleVarnam
        [symbolToken [plainRule "x" 1, { plainRule "x" 1 with matchType := 2 }]]
        false false = some [⟨"x", 9, 0⟩, ⟨"x", 9, 0⟩] ∧
    build sampleConsts sampleVarnam false
        [symbolToken [plainRule "x" 1, { plainRule "x" 1 with matchType := 2 }]]
        [plainRule "x" 1] = some ⟨"x", 9, 0⟩ ∧
    build sampleConsts sampleVarnam false
        [symbolToken [plainRule "x" 1, { plainRule "x" 1 with matchType := 2 }]]
        [{ plainRule "x" 1 with matchType := sampleConsts.VARNAM_MATCH_POSSIBILITY }] =
      some ⟨"x", 9, 0⟩ ∧
    ¬ ((⟨"x", 9, 0⟩ : Suggestion).Weight < (⟨"x", 9, 0⟩ : Suggestion).Weight) := by
  decide

/-- C7 as amended: let `s1` and `s2` be returned by `tokensToSuggestions`, `s1` built
from the matches `pre ++ R :: post` and `s2` from the same matches except that `R`,
an exact match, has its match type replaced by possibility; let the token of `R` be
a symbol token that is not the first token, let `VARNAM_MATCH_EXACT <
VARNAM_MATCH_POSSIBILITY`, and let adding their difference to the weight of `s2` not
overflow `int`. Then `s1` has the strictly greater weight, both occur in the ranked
list, and every occurrence of `s1` there comes before every occurrence of `s2`. -/
theorem exact_outranks_possibility (K : Consts) (varnam : Varnam) (greedy part : Bool)
    (tpre : List Token) (tj : Token) (tpost : List Token) (pre : List Symbol) (R : Symbol)
    (post : List Symbol) (out : List Suggestion) (s1 s2 : Suggestion)
    (hout : tokensToSuggestions K varnam (tpre ++ tj :: tpost) greedy part = some out)
    (hb1 : build K varnam part (tpre ++ tj :: tpost) (pre ++ R :: post) = some s1)
    (hb2 : build K varnam part (tpre ++ tj :: tpost)
      (pre ++ { R with matchType := K.VARNAM_MATCH_POSSIBILITY } :: post) = some s2)
    (hs1 : s1 ∈ out) (hs2 : s2 ∈ out)
    (hlen : pre.length = tpre.length) (hpos : tpre ≠ [])
    (hsym : tj.tokenType = K.VARNAM_TOKEN_SYMBOL)
    (hR : R.matchType = K.VARNAM_MATCH_EXACT)
    (hlt : K.VARNAM_MATCH_EXACT < K.VARNAM_MATCH_POSSIBILITY)
    (hrange : s2.Weight + (K.VARNAM_MATCH_POSSIBILITY - K.VARNAM_MATCH_EXACT) < 2 ^ 63) :
    s2.Weight < s1.Weight ∧ s1 ∈ sortSuggestions out ∧ s2 ∈ sortSuggestions out ∧
      ∀ (i j : Nat) (hi : i < (sortSuggestions out).length)
        (hj : j < (sortSuggestions out).length),
        (sortSuggestions out)[i] = s1 → (sortSuggestions out)[j] = s2 → i < j := by
  have hw : s2.Weight < s1.Weight := by
    have h := build_weight_shift K varnam part tpre tj tpost pre R post hlen hpos hsym
    rw [hb1, hb2, hR] at h
    rcases h with ⟨h, -⟩ | ⟨a, b, ha, hb, hab, hlow⟩
    · cases h
    · cases ha
      cases hb
      rw [hab, wrapInt_of_range _ (by omega) hrange]
      omega
  refine ⟨hw, (sortSuggestions_perm out).mem_iff.mpr hs1,
    (sortSuggestions_perm out).mem_iff.mpr hs2, ?_⟩
  intro i j hi hj hi1 hj2
  by_contra hij
  have hsorted := sortSuggestions_weight_desc out 0
    (tokensToSuggestions_learnedOn_zero K varnam _ greedy part out hout)
  rcases Nat.eq_or_lt_of_le (Nat.le_of_not_lt hij) with heq | hlt2
  · subst heq
    rw [hi1] at hj2
    rw [hj2] at hw
    exact absurd hw (lt_irrefl _)
  · have h := (List.pairwise_iff_getElem.mp hsorted) j i hj hi hlt2
    rw [hi1, hj2] at h
    omega

/-- Witness of the amended C7: the second of two symbol tokens has the exact match `p`
and the same match with match type possibility. -/
theorem exact_outranks_possibility_witness :
    (⟨"xp", 9, 0⟩ : Suggestion).Weight < (⟨"xp", 10, 0⟩ : Suggestion).Weight ∧
    (⟨"xp", 10, 0⟩ : Suggestion) ∈ sortSuggestions [⟨"xp", 10, 0⟩, ⟨"xp", 9, 0⟩] ∧
    (⟨"xp", 9, 0⟩ : Suggestion) ∈ sortSuggestions [⟨"xp", 10, 0⟩, ⟨"xp", 9, 0⟩] ∧
    ∀ (i j : Nat) (hi : i < (sortSuggestions [⟨"xp", 10, 0⟩, ⟨"xp", 9, 0⟩]).length)
      (hj : j < (sortSuggestions [⟨"xp", 10, 0⟩, ⟨"xp", 9, 0⟩]).length),
      (sortSuggestions [⟨"xp", 10, 0⟩, ⟨"xp", 9, 0⟩])[i] = ⟨"xp", 10, 0⟩ →
      (sortSuggestions [⟨"xp", 10, 0⟩, ⟨"xp", 9, 0⟩])[j] = ⟨"xp", 9, 0⟩ → i < j :=
  exact_outranks_possibility sampleConsts sampleVarnam false false
    [symbolToken [plainRule "x" 1]]
    (symbolToken [plainRule "p" 1, { plainRule "p" 1 with matchType := 2 }]) []
    [plainRule "x" 1] (plainRule "p" 1) [] [⟨"xp", 10, 0⟩, ⟨"xp", 9, 0⟩]
    ⟨"xp", 10, 0⟩ ⟨"xp", 9, 0⟩
    (by decide) (by decide) (by decide) (by decide) (by decide) (by decide) (by decide)
    (by decide) (by decide) (by decide) (by decide)

/-! ## Virama handling: C8 -/

theorem getLastCharacter_single (s : String) (h : s.length = 1) :
    (getLastCharacter s).1 = s := by
  obtain ⟨l⟩ := s
  match l, h with
  | [c], _ => rfl

theorem tokensToSuggestions_two_steps (K : Consts) (varnam : Varnam) (greedy part : Bool)
    (t0 t1 : Token) (rest : List Token) (first1 : Symbol) (others1 : List Symbol)
    (h0 : t0.tokenType = K.VARNAM_TOKEN_SYMBOL) (h1 : t1.tokenType = K.VARNAM_TOKEN_SYMBOL)
    (ht1 : t1.token = first1 :: others1) :
    tokensToSuggestions K varnam (t0 :: t1 :: rest) greedy part =
      tokensLoop K varnam greedy part (rest.length + 2) 2 rest
        (((t0.token.filter (survives K greedy (acceptState K 0 (rest.length + 2)))).map
            (firstSuggestion K part)).map (extendInPlace K varnam (rest.length + 2) 1 first1) ++
          ((t0.token.filter (survives K greedy (acceptState K 0 (rest.length + 2)))).map
            (firstSuggestion K part)).flatMap (fun result =>
              (others1.filter (survives K greedy (acceptState K 1 (rest.length + 2)))).map
                (cloneWith K varnam (rest.length + 2) 1 result))) := by
  simp only [tokensToSuggestions, tokensLoop, tokenStep, h0, h1, if_true, List.length_cons,
    List.nil_append, Nat.zero_add, Nat.one_ne_zero, if_false,
    extendResults_cons K varnam greedy (rest.length + 1 + 1) 1 t1 first1 others1 _ ht1]

/-- C8, evaluated on the tokens `x`, virama, virama with single matches: the virama
at index 1 renders the joiner glyph followed by `ZWNJ`, so the virama at index 2
finds `ZWNJ` as the last character and renders the joiner glyph and `ZWNJ` again.
The text holds two joiner glyphs for the pair, and it is not the text in which the
second virama contributes `ZWNJ` alone. -/
theorem virama_pair_renders_two_joiners :
    tokensToSuggestions sampleConsts sampleVarnam
        [symbolToken [plainRule "x" 1], symbolToken [viramaRule], symbolToken [viramaRule]]
        false false =
      some [⟨"x" ++ sampleJoiner ++ sampleConsts.ZWNJ ++ sampleJoiner ++ sampleConsts.ZWNJ,
        14, 0⟩] ∧
    "x" ++ sampleJoiner ++ sampleConsts.ZWNJ ++ sampleJoiner ++ sampleConsts.ZWNJ ≠
      "x" ++ sampleJoiner ++ sampleConsts.ZWNJ ++ sampleConsts.ZWNJ := by
  decide

/-- C8 as amended: let the first two tokens be symbol tokens, the second with the
matches `first1 :: others1`, and let the joiner glyph `varnam.LangRules.Virama` be
one character. Then the loop continues after the second token with a list `results2`
in which, for every surviving match `r0` of the first token that renders the joiner
glyph, the suggestion updated in place by `first1` (when `first1` is a virama) and
the clone for every surviving virama `r1` among `others1` are present with the text
joiner glyph followed by `ZWNJ`: the second application contributes `ZWNJ` alone. -/
theorem virama_after_first_token_joiner (K : Consts) (varnam : Varnam) (greedy part : Bool)
    (t0 t1 : Token) (rest : List Token) (first1 : Symbol) (others1 : List Symbol)
    (h0 : t0.tokenType = K.VARNAM_TOKEN_SYMBOL) (h1 : t1.tokenType = K.VARNAM_TOKEN_SYMBOL)
    (ht1 : t1.token = first1 :: others1)
    (hone : varnam.LangRules.Virama.length = 1) :
    ∃ results2 : List Suggestion,
      tokensToSuggestions K varnam (t0 :: t1 :: rest) greedy part =
        tokensLoop K varnam greedy part (rest.length + 2) 2 rest results2 ∧
      ∀ r0 ∈ t0.token, survives K greedy (acceptState K 0 (rest.length + 2)) r0 = true →
        K.getSymbolValue r0 (if part then 1 else 0) = varnam.LangRules.Virama →
        (first1.generalType = K.VARNAM_SYMBOL_VIRAMA →
          ∃ s ∈ results2, s = extendInPlace K varnam (rest.length + 2) 1 first1
              (firstSuggestion K part r0) ∧
            s.Word = varnam.LangRules.Virama ++ K.ZWNJ) ∧
        ∀ r1 ∈ others1, survives K greedy (acceptState K 1 (rest.length + 2)) r1 = true →
          r1.generalType = K.VARNAM_SYMBOL_VIRAMA →
          ∃ s ∈ results2, s = cloneWith K varnam (rest.length + 2) 1
              (firstSuggestion K part r0) r1 ∧
            s.Word = varnam.LangRules.Virama ++ K.ZWNJ := by
  refine ⟨_, tokensToSuggestions_two_steps K varnam greedy part t0 t1 rest first1 others1
    h0 h1 ht1, ?_⟩
  intro r0 hr0 hs0 hj0
  have hword : (firstSuggestion K part r0).Word = varnam.LangRules.Virama := by
    cases part <;> simpa [firstSuggestion] using hj0
  have hlast : (getLastCharacter varnam.LangRules.Virama).1 = varnam.LangRules.Virama :=
    getLastCharacter_single _ hone
  have hmem0 : firstSuggestion K part r0 ∈
      (t0.token.filter (survives K greedy (acceptState K 0 (rest.length + 2)))).map
        (firstSuggestion K part) :=
    List.mem_map.mpr ⟨r0, List.mem_filter.mpr ⟨hr0, hs0⟩, rfl⟩
  constructor
  · intro hv1
    refine ⟨_, List.mem_append_left _ (List.mem_map.mpr ⟨_, hmem0, rfl⟩), rfl, ?_⟩
    simp [extendInPlace, getNewValueAndWeight, hv1, hlast, hword]
  · intro r1 hr1 hs1 hv1
    refine ⟨_, List.mem_append_right _ (List.mem_flatMap.mpr ⟨_, hmem0,
      List.mem_map.mpr ⟨r1, List.mem_filter.mpr ⟨hr1, hs1⟩, rfl⟩⟩), rfl, ?_⟩
    simp [cloneWith, getNewValueAndWeight, hv1, hlast, hword]

/-- Witness of the amended C8: two virama tokens at the start of the word. -/
theorem virama_after_first_token_joiner_witness :
    (symbolToken [viramaRule]).tokenType = sampleConsts.VARNAM_TOKEN_SYMBOL ∧
    (symbolToken [viramaRule]).token = viramaRule :: [] ∧
    sampleVarnam.LangRules.Virama.length = 1 ∧
    ∃ results2 : List Suggestion,
      tokensToSuggestions sampleConsts sampleVarnam
          (symbolToken [viramaRule] :: symbolToken [viramaRule] :: []) false false =
        tokensLoop sampleConsts sampleVarnam false false (([] : List Token).length + 2) 2 []
          results2 ∧
      ∀ r0 ∈ (symbolToken [viramaRule]).token,
        survives sampleConsts false
            (acceptState sampleConsts 0 (([] : List Token).length + 2)) r0 = true →
        sampleConsts.getSymbolValue r0 (if false then 1 else 0) =
            sampleVarnam.LangRules.Virama →
        (viramaRule.generalType = sampleConsts.VARNAM_SYMBOL_VIRAMA →
          ∃ s ∈ results2, s = extendInPlace sampleConsts sampleVarnam
              (([] : List Token).length + 2) 1 viramaRule
              (firstSuggestion sampleConsts false r0) ∧
            s.Word = sampleVarnam.LangRules.Virama ++ sampleConsts.ZWNJ) ∧
        ∀ r1 ∈ ([] : List Symbol),
          survives sampleConsts false
              (acceptState sampleConsts 1 (([] : List Token).length + 2)) r1 = true →
          r1.generalType = sampleConsts.VARNAM_SYMBOL_VIRAMA →
          ∃ s ∈ results2, s = cloneWith sampleConsts sampleVarnam
              (([] : List Token).length + 2) 1 (firstSuggestion sampleConsts false r0) r1 ∧
            s.Word = sampleVarnam.LangRules.Virama ++ sampleConsts.ZWNJ :=
  ⟨by decide, by decide, by decide,
    virama_after_first_token_joiner sampleConsts sampleVarnam false false
      (symbolToken [viramaRule]) (symbolToken [viramaRule]) [] viramaRule []
      (by decide) (by decide) (by decide) (by decide)⟩


/-! ## Transliterate: C9, C10 -/

theorem sortSuggestions_nil : sortSuggestions [] = [] := rfl

theorem sortSuggestions_singleton (s : Suggestion) : sortSuggestions [s] = [s] := rfl

theorem getLastCharacter_x : (getLastCharacter "x").1 = "x" := rfl

/-- C9: let the symbol table answer the look-up of `~` with the rule `vRule`, a
virama rendered as `joiner`, let `aRule` be accepted at any position, not a virama
and rendered as `x`, let `word` be tokenized into the three single-match symbol
tokens of `aRule`, `vRule`, `aRule`, and let both stores answer with nothing. Then
`setLangRules` succeeds and `Transliterate` returns a result whose first
suggestion has the text `x`, `joiner`, `ZWNJ`, `x`. The weights and match types of
the two rules play no part; the joiner glyph differs from `x`. -/
theorem transliterate_a_virama_a (K : Consts) (v0 : Varnam) (word : List UInt8)
    (aRule vRule : Symbol) (joiner c0 c1 c2 : String)
    (ha : ∀ p, K.getSymbolValue aRule p = "x")
    (haa : aRule.acceptCondition = K.VARNAM_TOKEN_ACCEPT_ALL)
    (hag : aRule.generalType ≠ K.VARNAM_SYMBOL_VIRAMA)
    (hv : ∀ p, K.getSymbolValue vRule p = joiner)
    (hv1 : vRule.value1 = joiner)
    (hvg : vRule.generalType = K.VARNAM_SYMBOL_VIRAMA)
    (hjx : joiner ≠ "x")
    (hsearch : v0.searchSymbol "~" K.VARNAM_MATCH_EXACT = [vRule])
    (htok : v0.tokenizeWord word K.VARNAM_MATCH_ALL =
      [⟨K.VARNAM_TOKEN_SYMBOL, [aRule], c0⟩, ⟨K.VARNAM_TOKEN_SYMBOL, [vRule], c1⟩,
        ⟨K.VARNAM_TOKEN_SYMBOL, [aRule], c2⟩])
    (hdict : (v0.getFromDictionary (v0.tokenizeWord word K.VARNAM_MATCH_ALL)).sugs = [])
    (hpat : v0.getFromPatternDictionary word = []) :
    ∃ varnam res, setLangRules K v0 = some varnam ∧
      Transliterate K varnam word = some res ∧
      res.Suggestions.head?.map Suggestion.Word = some ("x" ++ joiner ++ K.ZWNJ ++ "x") := by
  obtain ⟨g, f, hg, -, -⟩ := tokensLoop_greedy_subset K
    { v0 with LangRules := { Virama := joiner, IndicDigits := false } } false 3
    [⟨K.VARNAM_TOKEN_SYMBOL, [aRule], c0⟩, ⟨K.VARNAM_TOKEN_SYMBOL, [vRule], c1⟩,
      ⟨K.VARNAM_TOKEN_SYMBOL, [aRule], c2⟩]
    (by intro t ht _; simp at ht; rcases ht with rfl | rfl | rfl <;> simp) 0 [] []
    (fun _ h => h)
  have hfull : tokensToSuggestions K
      { v0 with LangRules := { Virama := joiner, IndicDigits := false } }
      [⟨K.VARNAM_TOKEN_SYMBOL, [aRule], c0⟩, ⟨K.VARNAM_TOKEN_SYMBOL, [vRule], c1⟩,
        ⟨K.VARNAM_TOKEN_SYMBOL, [aRule], c2⟩] false false =
      some [⟨"x" ++ joiner ++ K.ZWNJ ++ "x",
        wrapInt (wrapInt (wrapInt (K.VARNAM_TOKEN_BASIC_WEIGHT - aRule.weight) - vRule.weight +
          (3 - 1) + (K.VARNAM_MATCH_POSSIBILITY - vRule.matchType)) - aRule.weight +
          (3 - 2) + (K.VARNAM_MATCH_POSSIBILITY - aRule.matchType)), 0⟩] := by
    have hx : ¬ ("x" = joiner) := fun h => hjx h.symm
    simp [tokensToSuggestions, tokensLoop, tokenStep, extendResults, survives, haa,
      firstSuggestion, extendInPlace, getNewValueAndWeight, ha, hv, hvg, hag,
      getLastCharacter_x, hx, String.append_assoc]
  refine ⟨{ v0 with LangRules := { Virama := joiner, IndicDigits := false } },
    ⟨[], [⟨"x" ++ joiner ++ K.ZWNJ ++ "x",
        wrapInt (wrapInt (wrapInt (K.VARNAM_TOKEN_BASIC_WEIGHT - aRule.weight) - vRule.weight +
          (3 - 1) + (K.VARNAM_MATCH_POSSIBILITY - vRule.matchType)) - aRule.weight +
          (3 - 2) + (K.VARNAM_MATCH_POSSIBILITY - aRule.matchType)), 0⟩],
      sortSuggestions g⟩, ?_, ?_, ?_⟩
  · simp [setLangRules, hsearch, hv1]
  · simp only [Transliterate, htok]
    rw [show tokensToSuggestions K
        { v0 with LangRules := { Virama := joiner, IndicDigits := false } }
        [⟨K.VARNAM_TOKEN_SYMBOL, [aRule], c0⟩, ⟨K.VARNAM_TOKEN_SYMBOL, [vRule], c1⟩,
          ⟨K.VARNAM_TOKEN_SYMBOL, [aRule], c2⟩] true false = some g from hg]
    rw [htok] at hdict
    simp only [dictionaryStage, hdict, hpat, patternLoop, List.length_nil, gt_iff_lt,
      lt_self_iff_false, if_false, if_true, hfull, List.nil_append, Bool.false_eq_true,
      sortSuggestions_singleton, sortSuggestions_nil]
  · rfl

/-- Witness of C9 with the sample constants and the word `a~a`. -/
theorem transliterate_a_virama_a_witness :
    ∃ varnam res, setLangRules sampleConsts exampleVarnam = some varnam ∧
      Transliterate sampleConsts varnam [97, 126, 97] = some res ∧
      res.Suggestions.head?.map Suggestion.Word =
        some ("x" ++ sampleJoiner ++ sampleConsts.ZWNJ ++ "x") :=
  transliterate_a_virama_a sampleConsts exampleVarnam [97, 126, 97] (plainRule "x" 1)
    viramaRule sampleJoiner "" "" "" (by intro p; simp [sampleConsts, sampleSymbolValue, plainRule])
    (by decide) (by decide)
    (by intro p; simp [sampleConsts, sampleSymbolValue, viramaRule])
    (by decide) (by decide) (by decide) (by decide) (by decide) (by decide) (by decide)

/-- C10, evaluated on an engine whose pattern store answers the look-up of the empty
word with a match of length 1: the match is longer than the word, so its suggestion
is added to `Suggestions`, which is not empty. -/
theorem empty_word_keeps_pattern_match :
    Transliterate sampleConsts patternVarnam [] = some ⟨[], [⟨"k", 0, 0⟩], []⟩ := by
  decide

/-- C10 as amended: when the tokenizer returns no token for the empty word and the
look-ups of the learned-word store and of the pattern store answer with nothing,
`Transliterate` of the empty word returns, without a panic, the result whose three
sequences are empty. -/
theorem transliterate_empty_word (K : Consts) (varnam : Varnam)
    (htok : varnam.tokenizeWord [] K.VARNAM_MATCH_ALL = [])
    (hdict : (varnam.getFromDictionary []).sugs = [])
    (hpat : varnam.getFromPatternDictionary [] = []) :
    Transliterate K varnam [] = some ⟨[], [], []⟩ := by
  simp [Transliterate, htok, hdict, hpat, tokensToSuggestions, tokensLoop, dictionaryStage,
    patternLoop, sortSuggestions_nil]

/-- Witness of the amended C10 on the sample engine, whose stores know nothing. -/
theorem transliterate_empty_word_witness :
    sampleVarnam.tokenizeWord [] sampleConsts.VARNAM_MATCH_ALL = [] ∧
    (sampleVarnam.getFromDictionary []).sugs = [] ∧
    sampleVarnam.getFromPatternDictionary [] = [] ∧
    Transliterate sampleConsts sampleVarnam [] = some ⟨[], [], []⟩ :=
  ⟨rfl, rfl, rfl, transliterate_empty_word sampleConsts sampleVarnam rfl rfl rfl⟩

/-! ## Merge and rank: C11, C12 -/

theorem patternLoop_of_nonneg (varnam : Varnam) (word : List UInt8)
    (found : List PatternDictionarySuggestion) :
    ∀ (results exactMatch : List Suggestion), (∀ m ∈ found, 0 ≤ m.Length) →
      patternLoop varnam word found (results, exactMatch) =
        some (results ++ patternResults varnam word found,
          exactMatch ++ patternExact word found) := by
  induction found with
  | nil =>
    intro results exactMatch _
    simp [patternLoop, patternResults, patternExact]
  | cons m rest ih =>
    intro results exactMatch h
    have hm : 0 ≤ m.Length := h m (List.mem_cons_self _ _)
    have hrest : ∀ m1 ∈ rest, 0 ≤ m1.Length := fun m1 h1 => h m1 (List.mem_cons_of_mem _ h1)
    rw [patternLoop]
    by_cases h1 : m.Length < (word.length : Int)
    · have hs : sliceFrom word m.Length = some (word.drop m.Length.toNat) := by
        simp only [sliceFrom]
        rw [if_pos ⟨hm, le_of_lt h1⟩]
      simp only [h1, if_true, hs]
      rw [ih _ _ hrest]
      simp [patternResults, patternExact, h1, ne_of_lt h1]
    · by_cases h2 : m.Length = (word.length : Int)
      · rw [if_neg h1, if_pos h2]
        rw [ih _ _ hrest]
        simp [patternResults, patternExact, h2]
      · rw [if_neg h1, if_neg h2]
        rw [ih _ _ hrest]
        simp [patternResults, patternExact, h1, h2]

theorem patternLoop_eq_some (varnam : Varnam) (word : List UInt8)
    (found : List PatternDictionarySuggestion) :
    ∀ (results exactMatch : List Suggestion) (out : List Suggestion × List Suggestion),
      patternLoop varnam word found (results, exactMatch) = some out →
      out = (results ++ patternResults varnam word found,
          exactMatch ++ patternExact word found) ∧
        ∀ m ∈ found, m.Length < (word.length : Int) → 0 ≤ m.Length := by
  induction found with
  | nil =>
    intro results exactMatch out h
    simp only [patternLoop, Option.some.injEq] at h
    subst h
    simp [patternResults, patternExact]
  | cons m rest ih =>
    intro results exactMatch out h
    rw [patternLoop] at h
    by_cases h1 : m.Length < (word.length : Int)
    · simp only [h1, if_true] at h
      by_cases hm : 0 ≤ m.Length
      · have hs : sliceFrom word m.Length = some (word.drop m.Length.toNat) := by
          simp only [sliceFrom]
          rw [if_pos ⟨hm, le_of_lt h1⟩]
        simp only [hs] at h
        obtain ⟨ho, hr⟩ := ih _ _ _ h
        refine ⟨?_, ?_⟩
        · rw [ho]
          simp [patternResults, patternExact, h1, ne_of_lt h1]
        · intro m1 hm1 hlt
          rcases List.mem_cons.mp hm1 with rfl | hm1
          · exact hm
          · exact hr m1 hm1 hlt
      · have hs : sliceFrom word m.Length = none := by
          simp only [sliceFrom]
          rw [if_neg (fun hc => hm hc.1)]
        simp [hs] at h
    · by_cases h2 : m.Length = (word.length : Int)
      · rw [if_neg h1, if_pos h2] at h
        obtain ⟨ho, hr⟩ := ih _ _ _ h
        refine ⟨?_, ?_⟩
        · rw [ho]
          simp [patternResults, patternExact, h2]
        · intro m1 hm1 hlt
          rcases List.mem_cons.mp hm1 with rfl | hm1
          · exact absurd hlt h1
          · exact hr m1 hm1 hlt
      · rw [if_neg h1, if_neg h2] at h
        obtain ⟨ho, hr⟩ := ih _ _ _ h
        refine ⟨?_, ?_⟩
        · rw [ho]
          simp [patternResults, patternExact, h1, h2]
        · intro m1 hm1 hlt
          rcases List.mem_cons.mp hm1 with rfl | hm1
          · exact absurd hlt h1
          · exact hr m1 hm1 hlt

theorem Transliterate_of_stages (K : Consts) (varnam : Varnam) (word : List UInt8)
    (g r0 e0 r1 e1 : List Suggestion) (trig : Bool)
    (hg : tokensToSuggestions K varnam (varnam.tokenizeWord word K.VARNAM_MATCH_ALL)
      true false = some g)
    (hstage : dictionaryStage varnam word
      (varnam.getFromDictionary (varnam.tokenizeWord word K.VARNAM_MATCH_ALL)) =
        some (r0, e0, trig))
    (hloop : patternLoop varnam word (varnam.getFromPatternDictionary word) (r0, e0) =
      some (r1, e1)) :
    Transliterate K varnam word =
      match (if e1.length = 0 then
          match tokensToSuggestions K varnam (varnam.tokenizeWord word K.VARNAM_MATCH_ALL)
              false false with
          | none => none
          | some sugs =>
            some ((if trig then r1 ++ (varnam.getMoreFromDictionary
              (varnam.getFromDictionary
                (varnam.tokenizeWord word K.VARNAM_MATCH_ALL)).sugs).flatten else r1) ++ sugs)
        else some (if trig then r1 ++ (varnam.getMoreFromDictionary
              (varnam.getFromDictionary
                (varnam.tokenizeWord word K.VARNAM_MATCH_ALL)).sugs).flatten else r1)) with
      | none => none
      | some results =>
        some ⟨sortSuggestions e1, sortSuggestions results, sortSuggestions g⟩ := by
  simp only [Transliterate, hg, hstage, hloop]

theorem Transliterate_stages_of_some (K : Consts) (varnam : Varnam) (word : List UInt8)
    (res : TransliterationResult) (h : Transliterate K varnam word = some res) :
    ∃ (g r0 e0 r1 e1 : List Suggestion) (trig : Bool),
      tokensToSuggestions K varnam (varnam.tokenizeWord word K.VARNAM_MATCH_ALL)
        true false = some g ∧
      dictionaryStage varnam word
        (varnam.getFromDictionary (varnam.tokenizeWord word K.VARNAM_MATCH_ALL)) =
          some (r0, e0, trig) ∧
      patternLoop varnam word (varnam.getFromPatternDictionary word) (r0, e0) =
        some (r1, e1) := by
  cases hg : tokensToSuggestions K varnam (varnam.tokenizeWord word K.VARNAM_MATCH_ALL)
      true false with
  | none => simp [Transliterate, hg] at h
  | some g =>
    cases hs : dictionaryStage varnam word
        (varnam.getFromDictionary (varnam.tokenizeWord word K.VARNAM_MATCH_ALL)) with
    | none => simp [Transliterate, hg, hs] at h
    | some st =>
      obtain ⟨r0, e0, trig⟩ := st
      cases hl : patternLoop varnam word (varnam.getFromPatternDictionary word) (r0, e0) with
      | none => simp [Transliterate, hg, hs, hl] at h
      | some p =>
        obtain ⟨r1, e1⟩ := p
        exact ⟨g, r0, e0, r1, e1, trig, rfl, rfl, hl⟩

/-- C11: when the learned-word store answers with no suggestion and the pattern store
with no match, `Transliterate` returns exactly when both expansions of the full
tokenization return, and then `ExactMatch` is empty, `Suggestions` is the ranked
expansion with `greedy = false` and `GreedyTokenized` the ranked expansion with
`greedy = true` (both with `partial = false`). And whatever the stores answer, when
the greedy expansion, the branch on the learned-word store and the loop over the
pattern matches have returned and `ExactMatch` is not empty, `Transliterate` returns
without running the expansion with `greedy = false`: `Suggestions` is the ranked
list of the results collected from the stores. -/
theorem transliterate_fallback_path (K : Consts) (varnam : Varnam) (word : List UInt8) :
    ((varnam.getFromDictionary (varnam.tokenizeWord word K.VARNAM_MATCH_ALL)).sugs = [] →
      varnam.getFromPatternDictionary word = [] →
      Transliterate K varnam word =
        match tokensToSuggestions K varnam (varnam.tokenizeWord word K.VARNAM_MATCH_ALL)
            true false,
          tokensToSuggestions K varnam (varnam.tokenizeWord word K.VARNAM_MATCH_ALL)
            false false with
        | some g, some f => some ⟨[], sortSuggestions f, sortSuggestions g⟩
        | _, _ => none) ∧
    (∀ (g r0 e0 r1 e1 : List Suggestion) (trig : Bool),
      tokensToSuggestions K varnam (varnam.tokenizeWord word K.VARNAM_MATCH_ALL)
        true false = some g →
      dictionaryStage varnam word
        (varnam.getFromDictionary (varnam.tokenizeWord word K.VARNAM_MATCH_ALL)) =
          some (r0, e0, trig) →
      patternLoop varnam word (varnam.getFromPatternDictionary word) (r0, e0) =
        some (r1, e1) →
      e1 ≠ [] →
      Transliterate K varnam word =
        some ⟨sortSuggestions e1,
          sortSuggestions (if trig then r1 ++ (varnam.getMoreFromDictionary
            (varnam.getFromDictionary
              (varnam.tokenizeWord word K.VARNAM_MATCH_ALL)).sugs).flatten else r1),
          sortSuggestions g⟩) := by
  constructor
  · intro hdict hpat
    cases hg : tokensToSuggestions K varnam (varnam.tokenizeWord word K.VARNAM_MATCH_ALL)
        true false with
    | none => simp [Transliterate, hg]
    | some g =>
      have hstage : dictionaryStage varnam word
          (varnam.getFromDictionary (varnam.tokenizeWord word K.VARNAM_MATCH_ALL)) =
            some ([], [], false) := by
        simp [dictionaryStage, hdict]
      have hloop : patternLoop varnam word (varnam.getFromPatternDictionary word) ([], []) =
          some ([], []) := by
        simp [hpat, patternLoop]
      rw [Transliterate_of_stages K varnam word g [] [] [] [] false hg hstage hloop]
      cases hf : tokensToSuggestions K varnam (varnam.tokenizeWord word K.VARNAM_MATCH_ALL)
          false false with
      | none => simp
      | some f => simp [sortSuggestions_nil]
  · intro g r0 e0 r1 e1 trig hg hstage hloop hne
    rw [Transliterate_of_stages K varnam word g r0 e0 r1 e1 trig hg hstage hloop]
    have hlen : ¬ e1.length = 0 := fun h => hne (List.length_eq_zero.mp h)
    rw [if_neg hlen]

/-- Witness of C11: the word `a~a` on the sample engine whose stores know nothing,
and the word `k` on the sample engine whose pattern store has a match of length 1. -/
theorem transliterate_fallback_path_witness :
    Transliterate sampleConsts exampleVarnam [97, 126, 97] =
      (match tokensToSuggestions sampleConsts exampleVarnam
            (exampleVarnam.tokenizeWord [97, 126, 97] sampleConsts.VARNAM_MATCH_ALL)
            true false,
          tokensToSuggestions sampleConsts exampleVarnam
            (exampleVarnam.tokenizeWord [97, 126, 97] sampleConsts.VARNAM_MATCH_ALL)
            false false with
        | some g, some f => some ⟨[], sortSuggestions f, sortSuggestions g⟩
        | _, _ => none) ∧
    Transliterate sampleConsts patternVarnam [107] =
      some ⟨sortSuggestions [⟨"k", 0, 0⟩],
        sortSuggestions (if false then [] ++ (patternVarnam.getMoreFromDictionary
            (patternVarnam.getFromDictionary
              (patternVarnam.tokenizeWord [107] sampleConsts.VARNAM_MATCH_ALL)).sugs).flatten
          else []),
        sortSuggestions []⟩ :=
  ⟨(transliterate_fallback_path sampleConsts exampleVarnam [97, 126, 97]).1 rfl rfl,
    (transliterate_fallback_path sampleConsts patternVarnam [107]).2 [] [] [] []
      [⟨"k", 0, 0⟩] false (by decide) (by decide) (by decide) (by decide)⟩

/-- C12: in every result `Transliterate` returns, `ExactMatch` is the ranked list of
the exact suggestions of the learned-word store followed by the suggestions of the
pattern matches as long as the word, and `Suggestions` is the ranked list of the
results of the learned-word store, followed by what the pattern matches add (the
expansion of the rest of the word seeded with the match for a shorter match, nothing
for a match as long as the word, the suggestion itself for a longer match), by the
longer completions and by the fallback expansion. So the suggestion of a match as
long as the word occurs in `ExactMatch`, the suggestion of a longer match occurs in
`Suggestions`, and for a shorter match the slice `word[matchedLength:]` is taken and
every result of its seeded expansion occurs in `Suggestions`. `Transliterate` does
return when both expansions and the branch on the learned-word store return and no
match has a negative length. -/
theorem pattern_match_placement (K : Consts) (varnam : Varnam) (word : List UInt8) :
    (∀ res, Transliterate K varnam word = some res →
      ∃ (r0 e0 extra : List Suggestion) (trig : Bool),
        dictionaryStage varnam word
          (varnam.getFromDictionary (varnam.tokenizeWord word K.VARNAM_MATCH_ALL)) =
            some (r0, e0, trig) ∧
        (extra = [] ∨ tokensToSuggestions K varnam
          (varnam.tokenizeWord word K.VARNAM_MATCH_ALL) false false = some extra) ∧
        res.ExactMatch = sortSuggestions
          (e0 ++ patternExact word (varnam.getFromPatternDictionary word)) ∧
        res.Suggestions = sortSuggestions
          (r0 ++ patternResults varnam word (varnam.getFromPatternDictionary word) ++
            (if trig then (varnam.getMoreFromDictionary (varnam.getFromDictionary
              (varnam.tokenizeWord word K.VARNAM_MATCH_ALL)).sugs).flatten else []) ++
            extra) ∧
        ∀ m ∈ varnam.getFromPatternDictionary word,
          (m.Length = (word.length : Int) → m.Sug ∈ res.ExactMatch) ∧
          ((word.length : Int) < m.Length → m.Sug ∈ res.Suggestions) ∧
          (m.Length < (word.length : Int) →
            sliceFrom word m.Length = some (word.drop m.Length.toNat) ∧
            ∀ s ∈ varnam.tokenizeRestOfWord (word.drop m.Length.toNat) [m.Sug],
              s ∈ res.Suggestions)) ∧
    (∀ (g f : List Suggestion) (st : List Suggestion × List Suggestion × Bool),
      tokensToSuggestions K varnam (varnam.tokenizeWord word K.VARNAM_MATCH_ALL)
        true false = some g →
      tokensToSuggestions K varnam (varnam.tokenizeWord word K.VARNAM_MATCH_ALL)
        false false = some f →
      dictionaryStage varnam word
        (varnam.getFromDictionary (varnam.tokenizeWord word K.VARNAM_MATCH_ALL)) = some st →
      (∀ m ∈ varnam.getFromPatternDictionary word, 0 ≤ m.Length) →
      ∃ res, Transliterate K varnam word = some res) := by
  constructor
  · intro res hres
    obtain ⟨g, r0, e0, r1, e1, trig, hg, hstage, hloop⟩ :=
      Transliterate_stages_of_some K varnam word res hres
    obtain ⟨hout, hnonneg⟩ := patternLoop_eq_some varnam word _ r0 e0 (r1, e1) hloop
    rw [Transliterate_of_stages K varnam word g r0 e0 r1 e1 trig hg hstage hloop] at hres
    simp only [Prod.mk.injEq] at hout
    obtain ⟨hr1, he1⟩ := hout
    have key : ∃ extra : List Suggestion,
        (extra = [] ∨ tokensToSuggestions K varnam
          (varnam.tokenizeWord word K.VARNAM_MATCH_ALL) false false = some extra) ∧
        res = ⟨sortSuggestions e1, sortSuggestions
          (r1 ++ (if trig then (varnam.getMoreFromDictionary (varnam.getFromDictionary
              (varnam.tokenizeWord word K.VARNAM_MATCH_ALL)).sugs).flatten else []) ++
            extra), sortSuggestions g⟩ := by
      by_cases hlen : e1.length = 0
      · rw [if_pos hlen] at hres
        cases hf : tokensToSuggestions K varnam
            (varnam.tokenizeWord word K.VARNAM_MATCH_ALL) false false with
        | none => simp [hf] at hres
        | some f =>
          simp only [hf, Option.some.injEq] at hres
          refine ⟨f, Or.inr rfl, ?_⟩
          rw [← hres]
          cases trig <;> simp
      · rw [if_neg hlen] at hres
        simp only [Option.some.injEq] at hres
        refine ⟨[], Or.inl rfl, ?_⟩
        rw [← hres]
        cases trig <;> simp
    obtain ⟨extra, hextra, hreseq⟩ := key
    have hE : res.ExactMatch = sortSuggestions
        (e0 ++ patternExact word (varnam.getFromPatternDictionary word)) := by
      rw [hreseq, he1]
    have hS : res.Suggestions = sortSuggestions
        (r0 ++ patternResults varnam word (varnam.getFromPatternDictionary word) ++
          (if trig then (varnam.getMoreFromDictionary (varnam.getFromDictionary
            (varnam.tokenizeWord word K.VARNAM_MATCH_ALL)).sugs).flatten else []) ++
          extra) := by
      rw [hreseq, hr1]
    refine ⟨r0, e0, extra, trig, hstage, hextra, hE, hS, ?_⟩
    intro m hm
    refine ⟨?_, ?_, ?_⟩
    · intro heq
      rw [hE]
      refine (sortSuggestions_perm _).mem_iff.mpr (List.mem_append_right _ ?_)
      exact List.mem_map.mpr ⟨m, List.mem_filter.mpr ⟨hm, by simpa using heq⟩, rfl⟩
    · intro hgt
      rw [hS]
      refine (sortSuggestions_perm _).mem_iff.mpr ?_
      refine List.mem_append_left _ (List.mem_append_left _ (List.mem_append_right _ ?_))
      refine List.mem_flatMap.mpr ⟨m, hm, ?_⟩
      rw [if_neg (not_lt_of_gt hgt), if_neg (ne_of_gt hgt)]
      exact List.mem_singleton.mpr rfl
    · intro hlt
      have h0 : 0 ≤ m.Length := hnonneg m hm hlt
      refine ⟨?_, ?_⟩
      · simp only [sliceFrom]
        rw [if_pos ⟨h0, le_of_lt hlt⟩]
      · intro s hs
        rw [hS]
        refine (sortSuggestions_perm _).mem_iff.mpr ?_
        refine List.mem_append_left _ (List.mem_append_left _ (List.mem_append_right _ ?_))
        refine List.mem_flatMap.mpr ⟨m, hm, ?_⟩
        rw [if_pos hlt]
        exact hs
  · intro g f st hg hf hstage hnonneg
    obtain ⟨r0, e0, trig⟩ := st
    have hloop := patternLoop_of_nonneg varnam word (varnam.getFromPatternDictionary word)
      r0 e0 hnonneg
    rw [Transliterate_of_stages K varnam word g r0 e0 _ _ trig hg hstage hloop, hf]
    by_cases hlen : (e0 ++ patternExact word (varnam.getFromPatternDictionary word)).length = 0
    · rw [if_pos hlen]
      exact ⟨_, rfl⟩
    · rw [if_neg hlen]
      exact ⟨_, rfl⟩

/-- Witness of C12: the word `kl` of length 2 on the sample engine whose pattern store
has matches of the lengths 1, 2 and 3. -/
theorem pattern_match_placement_witness :
    Transliterate sampleConsts placementVarnam [107, 108] =
      some ⟨[⟨"e", 0, 0⟩], [⟨"k", 0, 0⟩, ⟨"l", 0, 0⟩], []⟩ ∧
    (∀ m ∈ placementVarnam.getFromPatternDictionary [107, 108],
      (m.Length = (([107, 108] : List UInt8).length : Int) →
        m.Sug ∈ ([⟨"e", 0, 0⟩] : List Suggestion)) ∧
      ((([107, 108] : List UInt8).length : Int) < m.Length →
        m.Sug ∈ ([⟨"k", 0, 0⟩, ⟨"l", 0, 0⟩] : List Suggestion)) ∧
      (m.Length < (([107, 108] : List UInt8).length : Int) →
        sliceFrom [107, 108] m.Length = some (([107, 108] : List UInt8).drop m.Length.toNat) ∧
        ∀ s ∈ placementVarnam.tokenizeRestOfWord
            (([107, 108] : List UInt8).drop m.Length.toNat) [m.Sug],
          s ∈ ([⟨"k", 0, 0⟩, ⟨"l", 0, 0⟩] : List Suggestion))) ∧
    (∃ res, Transliterate sampleConsts placementVarnam [107, 108] = some res) :=
  ⟨by decide,
    by
      obtain ⟨_, _, _, _, -, -, -, -, h⟩ :=
        (pattern_match_placement sampleConsts placementVarnam [107, 108]).1
          ⟨[⟨"e", 0, 0⟩], [⟨"k", 0, 0⟩, ⟨"l", 0, 0⟩], []⟩ (by decide)
      exact h,
    (pattern_match_placement sampleConsts placementVarnam [107, 108]).2 [] []
      ([], [], false) (by decide) (by decide) (by decide) (by decide)⟩

/-! ## Language rules: C13 -/

/-- C13: `setLangRules` fails exactly when the exact-match look-up of `~` returns no
rule; when the look-up returns the rules `first :: rest`, it returns the engine with
`IndicDigits` set to false and `Virama` set to `first.value1`, and with everything
else as before. -/
theorem setLangRules_bootstrap (K : Consts) (varnam : Varnam) :
    (setLangRules K varnam = none ↔ varnam.searchSymbol "~" K.VARNAM_MATCH_EXACT = []) ∧
    (∀ (first : Symbol) (rest : List Symbol),
      varnam.searchSymbol "~" K.VARNAM_MATCH_EXACT = first :: rest →
      ∃ v, setLangRules K varnam = some v ∧ v.LangRules.IndicDigits = false ∧
        v.LangRules.Virama = first.value1 ∧
        v.searchSymbol = varnam.searchSymbol ∧ v.tokenizeWord = varnam.tokenizeWord ∧
        v.getFromDictionary = varnam.getFromDictionary ∧
        v.getFromPatternDictionary = varnam.getFromPatternDictionary ∧
        v.getMoreFromDictionary = varnam.getMoreFromDictionary ∧
        v.tokenizeRestOfWord = varnam.tokenizeRestOfWord ∧ v.debug = varnam.debug) := by
  constructor
  · unfold setLangRules
    cases h : varnam.searchSymbol "~" K.VARNAM_MATCH_EXACT with
    | nil => simp
    | cons s rest => simp
  · intro first rest h
    refine ⟨{ varnam with LangRules := { Virama := first.value1, IndicDigits := false } },
      ?_, rfl, rfl, rfl, rfl, rfl, rfl, rfl, rfl, rfl⟩
    simp [setLangRules, h]

/-- Witness of C13 on the sample engine whose symbol table answers with the virama
rule. -/
theorem setLangRules_bootstrap_witness :
    exampleVarnam.searchSymbol "~" sampleConsts.VARNAM_MATCH_EXACT = viramaRule :: [] ∧
    ∃ v, setLangRules sampleConsts exampleVarnam = some v ∧ v.LangRules.IndicDigits = false ∧
      v.LangRules.Virama = viramaRule.value1 ∧
      v.searchSymbol = exampleVarnam.searchSymbol ∧
      v.tokenizeWord = exampleVarnam.tokenizeWord ∧
      v.getFromDictionary = exampleVarnam.getFromDictionary ∧
      v.getFromPatternDictionary = exampleVarnam.getFromPatternDictionary ∧
      v.getMoreFromDictionary = exampleVarnam.getMoreFromDictionary ∧
      v.tokenizeRestOfWord = exampleVarnam.tokenizeRestOfWord ∧
      v.debug = exampleVarnam.debug :=
  ⟨rfl, (setLangRules_bootstrap sampleConsts exampleVarnam).2 viramaRule [] rfl⟩

/-! ## A later token without a surviving or without any match: C14, C15 -/

/-- C14, evaluated on the symbol tokens `x`, `q`, `y` with single matches, where `q` is
accepted at the start of a word only and so does not survive at index 1 of 3: the
step of that token turns the in-progress suggestion `x` of weight 9 into `xq` of
weight 11, and the expansion returns `xqy` and not `xy`. -/
theorem unsurviving_first_symbol_is_applied :
    [{ plainRule "q" 1 with acceptCondition := 1 }].filter
        (survives sampleConsts false (acceptState sampleConsts 1 3)) = [] ∧
    tokenStep sampleConsts sampleVarnam false false 3 1
        (symbolToken [{ plainRule "q" 1 with acceptCondition := 1 }]) [⟨"x", 9, 0⟩] =
      some [⟨"xq", 11, 0⟩] ∧
    tokensToSuggestions sampleConsts sampleVarnam
        [symbolToken [plainRule "x" 1],
         symbolToken [{ plainRule "q" 1 with acceptCondition := 1 }],
         symbolToken [plainRule "y" 1]] false false =
      some [⟨"xqy", 12, 0⟩] := by
  decide

/-- C15, evaluated on the symbol token `x` followed by a symbol token without any
match: the in-progress suggestion `x` exists when the second token is reached, and
indexing `t.token[0]` panics. -/
theorem empty_rule_list_panics :
    tokenStep sampleConsts sampleVarnam false false 2 0 (symbolToken [plainRule "x" 1]) [] =
      some [⟨"x", 9, 0⟩] ∧
    tokensToSuggestions sampleConsts sampleVarnam
        [symbolToken [plainRule "x" 1], symbolToken []] false false = none := by
  decide

/-! ## The weight engine: C16, C17 -/

/-- C16: the rendered fragment of `getNewValueAndWeight` is `ZWNJ` alone for a virama
rule when the previous character is the virama of the engine, the value of the rule
at the position followed by `ZWNJ` for a virama rule when it is not, and the value
of the rule at the position for a rule that is no virama. -/
theorem virama_fixup_cases (K : Consts) (varnam : Varnam) (weight : Int) (rule : Symbol)
    (previousCharacter : String) (tokensLength position : Int) :
    (rule.generalType = K.VARNAM_SYMBOL_VIRAMA →
      previousCharacter = varnam.LangRules.Virama →
      (getNewValueAndWeight K varnam weight rule previousCharacter tokensLength position).1 =
        K.ZWNJ) ∧
    (rule.generalType = K.VARNAM_SYMBOL_VIRAMA →
      previousCharacter ≠ varnam.LangRules.Virama →
      (getNewValueAndWeight K varnam weight rule previousCharacter tokensLength position).1 =
        K.getSymbolValue rule position ++ K.ZWNJ) ∧
    (rule.generalType ≠ K.VARNAM_SYMBOL_VIRAMA →
      (getNewValueAndWeight K varnam weight rule previousCharacter tokensLength position).1 =
        K.getSymbolValue rule position) := by
  refine ⟨?_, ?_, ?_⟩
  · intro hv hp
    simp [getNewValueAndWeight, hv, hp]
  · intro hv hp
    simp [getNewValueAndWeight, hv, hp]
  · intro hv
    simp [getNewValueAndWeight, hv]

/-- Witness of C16: the sample virama rule after the joiner glyph and after `x`, and
the plain rule `x`. -/
theorem virama_fixup_cases_witness :
    (getNewValueAndWeight sampleConsts sampleVarnam 9 viramaRule sampleJoiner 3 1).1 =
      sampleConsts.ZWNJ ∧
    (getNewValueAndWeight sampleConsts sampleVarnam 9 viramaRule "x" 3 1).1 =
      sampleConsts.getSymbolValue viramaRule 1 ++ sampleConsts.ZWNJ ∧
    (getNewValueAndWeight sampleConsts sampleVarnam 9 (plainRule "x" 1) "x" 3 1).1 =
      sampleConsts.getSymbolValue (plainRule "x" 1) 1 :=
  ⟨(virama_fixup_cases sampleConsts sampleVarnam 9 viramaRule sampleJoiner 3 1).1
      (by decide) (by decide),
    (virama_fixup_cases sampleConsts sampleVarnam 9 viramaRule "x" 3 1).2.1
      (by decide) (by decide),
    (virama_fixup_cases sampleConsts sampleVarnam 9 (plainRule "x" 1) "x" 3 1).2.2
      (by decide)⟩

/-- C17, evaluated at the base weight `2^63 - 2`, one token and position 0, for the
exact rule `x` of weight 0 and the same rule with match type possibility: the
formula gives `2^63` for the exact rule, which is no `int`; the code returns
`-2^63` for the exact rule and `2^63 - 1` for the possibility rule, so the exact
rule yields the smaller weight. -/
theorem weight_overflow_reverses_order :
    weightFormula sampleConsts (2 ^ 63 - 2) (plainRule "x" 0) 1 0 = 2 ^ 63 ∧
    (getNewValueAndWeight sampleConsts sampleVarnam (2 ^ 63 - 2) (plainRule "x" 0) "" 1 0).2 =
      -(2 ^ 63) ∧
    (getNewValueAndWeight sampleConsts sampleVarnam (2 ^ 63 - 2)
      { plainRule "x" 0 with matchType := 2 } "" 1 0).2 = 2 ^ 63 - 1 ∧
    ¬ ((getNewValueAndWeight sampleConsts sampleVarnam (2 ^ 63 - 2)
        { plainRule "x" 0 with matchType := 2 } "" 1 0).2 <
      (getNewValueAndWeight sampleConsts sampleVarnam (2 ^ 63 - 2)
        (plainRule "x" 0) "" 1 0).2) := by
  decide

/-- C17 as amended: when the value of the weight formula lies in the range of `int`,
`getNewValueAndWeight` returns it as the new weight, whatever the previous character
is; with `VARNAM_MATCH_EXACT < VARNAM_MATCH_POSSIBILITY`, an exact rule yields a
strictly greater weight than the same rule with match type possibility, and the
same rule yields a strictly greater weight at an earlier position than at a later
one, whenever the formula of the other rule or position lies in the range too. -/
theorem weight_formula_in_range (K : Consts) (varnam : Varnam) (baseWeight : Int)
    (rule : Symbol) (previousCharacter : String) (totalTokens position : Int)
    (hr : InIntRange (weightFormula K baseWeight rule totalTokens position)) :
    (getNewValueAndWeight K varnam baseWeight rule previousCharacter totalTokens position).2 =
      weightFormula K baseWeight rule totalTokens position ∧
    (∀ other : String,
      (getNewValueAndWeight K varnam baseWeight rule other totalTokens position).2 =
        (getNewValueAndWeight K varnam baseWeight rule previousCharacter totalTokens
          position).2) ∧
    (rule.matchType = K.VARNAM_MATCH_EXACT →
      K.VARNAM_MATCH_EXACT < K.VARNAM_MATCH_POSSIBILITY →
      InIntRange (weightFormula K baseWeight
        { rule with matchType := K.VARNAM_MATCH_POSSIBILITY } totalTokens position) →
      (getNewValueAndWeight K varnam baseWeight
          { rule with matchType := K.VARNAM_MATCH_POSSIBILITY } previousCharacter totalTokens
          position).2 <
        (getNewValueAndWeight K varnam baseWeight rule previousCharacter totalTokens
          position).2) ∧
    (∀ later : Int, position < later →
      InIntRange (weightFormula K baseWeight rule totalTokens later) →
      (getNewValueAndWeight K varnam baseWeight rule previousCharacter totalTokens later).2 <
        (getNewValueAndWeight K varnam baseWeight rule previousCharacter totalTokens
          position).2) := by
  have hw : ∀ (r : Symbol) (prev : String) (pos : Int),
      InIntRange (weightFormula K baseWeight r totalTokens pos) →
      (getNewValueAndWeight K varnam baseWeight r prev totalTokens pos).2 =
        weightFormula K baseWeight r totalTokens pos := by
    intro r prev pos h
    exact wrapInt_of_range _ h.1 h.2
  refine ⟨hw rule previousCharacter position hr, ?_, ?_, ?_⟩
  · intro other
    rfl
  · intro hex hlt hr2
    rw [hw _ _ _ hr2, hw _ _ _ hr]
    simp only [weightFormula, hex]
    omega
  · intro later hlater hr2
    rw [hw _ _ _ hr2, hw _ _ _ hr]
    simp only [weightFormula]
    omega

/-- Witness of the amended C17: base weight 9, the rule `p` of weight 1, three tokens,
position 1 and the later position 2. -/
theorem weight_formula_in_range_witness :
    InIntRange (weightFormula sampleConsts 9 (plainRule "p" 1) 3 1) ∧
    (getNewValueAndWeight sampleConsts sampleVarnam 9 (plainRule "p" 1) "x" 3 1).2 =
      weightFormula sampleConsts 9 (plainRule "p" 1) 3 1 ∧
    (getNewValueAndWeight sampleConsts sampleVarnam 9
        { plainRule "p" 1 with matchType := sampleConsts.VARNAM_MATCH_POSSIBILITY } "x" 3 1).2 <
      (getNewValueAndWeight sampleConsts sampleVarnam 9 (plainRule "p" 1) "x" 3 1).2 ∧
    (getNewValueAndWeight sampleConsts sampleVarnam 9 (plainRule "p" 1) "x" 3 2).2 <
      (getNewValueAndWeight sampleConsts sampleVarnam 9 (plainRule "p" 1) "x" 3 1).2 :=
  ⟨⟨by decide, by decide⟩,
    (weight_formula_in_range sampleConsts sampleVarnam 9 (plainRule "p" 1) "x" 3 1
      ⟨by decide, by decide⟩).1,
    (weight_formula_in_range sampleConsts sampleVarnam 9 (plainRule "p" 1) "x" 3 1
      ⟨by decide, by decide⟩).2.2.1 (by decide) (by decide) ⟨by decide, by decide⟩,
    (weight_formula_in_range sampleConsts sampleVarnam 9 (plainRule "p" 1) "x" 3 1
      ⟨by decide, by decide⟩).2.2.2 2 (by decide) ⟨by decide, by decide⟩⟩

/-! ## The first token: C18, C19 -/

theorem survives_first_token (K : Consts) (greedy : Bool) (n : Nat) (r : Symbol) :
    survives K greedy (acceptState K 0 n) r =
      decide (¬ (greedy = true ∧ r.matchType = K.VARNAM_MATCH_POSSIBILITY) ∧
        (r.acceptCondition = K.VARNAM_TOKEN_ACCEPT_ALL ∨
          r.acceptCondition = K.VARNAM_TOKEN_ACCEPT_IF_STARTS_WITH)) := by
  cases greedy <;>
    by_cases h1 : r.matchType = K.VARNAM_MATCH_POSSIBILITY <;>
    by_cases h2 : r.acceptCondition = K.VARNAM_TOKEN_ACCEPT_ALL <;>
    by_cases h3 : r.acceptCondition = K.VARNAM_TOKEN_ACCEPT_IF_STARTS_WITH <;>
    simp [survives, acceptState, h1, h2, h3]

theorem tokensLoop_nil (K : Consts) (varnam : Varnam) (greedy part : Bool) (n : Nat)
    (rest : List Token) :
    ∀ i : Nat, i ≠ 0 → tokensLoop K varnam greedy part n i rest [] = some [] := by
  induction rest with
  | nil => intro i _; rfl
  | cons t rest ih =>
    intro i hi
    have hstep : tokenStep K varnam greedy part n i t [] = some [] := by
      unfold tokenStep
      by_cases hsym : t.tokenType = K.VARNAM_TOKEN_SYMBOL
      · rw [if_pos hsym, if_neg hi]
        rfl
      · rw [if_neg hsym]
        by_cases hch : t.tokenType = K.VARNAM_TOKEN_CHAR
        · rw [if_pos hch]
          rfl
        · rw [if_neg hch]
    simp only [tokensLoop, hstep]
    exact ih (i + 1) (by omega)

/-- C18: for a symbol token `t` at index 0, whatever the number `n` of tokens is, the
step of `t` turns the empty in-progress list into the list that holds, in the order
of `t.token`, one suggestion for every match that is not a possibility match when
`greedy` is set and whose accept condition is `VARNAM_TOKEN_ACCEPT_ALL` or
`VARNAM_TOKEN_ACCEPT_IF_STARTS_WITH`; its text is the value of the match at
position 1 when `partial` is set and at position 0 otherwise, its weight is
`VARNAM_TOKEN_BASIC_WEIGHT - weight` in `int` arithmetic (the integer difference
when that lies in the range of `int`) and its `LearnedOn` is 0. The loop goes on
from index 1 with this list, which is the result when `t` is the only token. A
match accepted at the end of a word only is left out, also when `n` is 1. -/
theorem first_token_expansion (K : Consts) (varnam : Varnam) (greedy part : Bool)
    (t : Token) (rest : List Token) (hsym : t.tokenType = K.VARNAM_TOKEN_SYMBOL) :
    (∀ n : Nat, tokenStep K varnam greedy part n 0 t [] =
      some ((t.token.filter (fun r =>
          decide (¬ (greedy = true ∧ r.matchType = K.VARNAM_MATCH_POSSIBILITY) ∧
            (r.acceptCondition = K.VARNAM_TOKEN_ACCEPT_ALL ∨
              r.acceptCondition = K.VARNAM_TOKEN_ACCEPT_IF_STARTS_WITH)))).map
        (fun r => ⟨if part then K.getSymbolValue r 1 else K.getSymbolValue r 0,
          wrapInt (K.VARNAM_TOKEN_BASIC_WEIGHT - r.weight), 0⟩))) ∧
    tokensToSuggestions K varnam (t :: rest) greedy part =
      tokensLoop K varnam greedy part (rest.length + 1) 1 rest
        ((t.token.filter (fun r =>
            decide (¬ (greedy = true ∧ r.matchType = K.VARNAM_MATCH_POSSIBILITY) ∧
              (r.acceptCondition = K.VARNAM_TOKEN_ACCEPT_ALL ∨
                r.acceptCondition = K.VARNAM_TOKEN_ACCEPT_IF_STARTS_WITH)))).map
          (fun r => ⟨if part then K.getSymbolValue r 1 else K.getSymbolValue r 0,
            wrapInt (K.VARNAM_TOKEN_BASIC_WEIGHT - r.weight), 0⟩)) ∧
    tokensToSuggestions K varnam [t] greedy part =
      some ((t.token.filter (fun r =>
          decide (¬ (greedy = true ∧ r.matchType = K.VARNAM_MATCH_POSSIBILITY) ∧
            (r.acceptCondition = K.VARNAM_TOKEN_ACCEPT_ALL ∨
              r.acceptCondition = K.VARNAM_TOKEN_ACCEPT_IF_STARTS_WITH)))).map
        (fun r => ⟨if part then K.getSymbolValue r 1 else K.getSymbolValue r 0,
          wrapInt (K.VARNAM_TOKEN_BASIC_WEIGHT - r.weight), 0⟩)) ∧
    (∀ r : Symbol, InIntRange (K.VARNAM_TOKEN_BASIC_WEIGHT - r.weight) →
      wrapInt (K.VARNAM_TOKEN_BASIC_WEIGHT - r.weight) =
        K.VARNAM_TOKEN_BASIC_WEIGHT - r.weight) ∧
    (K.VARNAM_TOKEN_ACCEPT_IF_ENDS_WITH ≠ K.VARNAM_TOKEN_ACCEPT_ALL →
      K.VARNAM_TOKEN_ACCEPT_IF_ENDS_WITH ≠ K.VARNAM_TOKEN_ACCEPT_IF_STARTS_WITH →
      ∀ r : Symbol, r.acceptCondition = K.VARNAM_TOKEN_ACCEPT_IF_ENDS_WITH →
        r ∉ t.token.filter (fun r =>
          decide (¬ (greedy = true ∧ r.matchType = K.VARNAM_MATCH_POSSIBILITY) ∧
            (r.acceptCondition = K.VARNAM_TOKEN_ACCEPT_ALL ∨
              r.acceptCondition = K.VARNAM_TOKEN_ACCEPT_IF_STARTS_WITH)))) := by
  have hfilter : ∀ n : Nat, survives K greedy (acceptState K 0 n) =
      (fun r => decide (¬ (greedy = true ∧ r.matchType = K.VARNAM_MATCH_POSSIBILITY) ∧
        (r.acceptCondition = K.VARNAM_TOKEN_ACCEPT_ALL ∨
          r.acceptCondition = K.VARNAM_TOKEN_ACCEPT_IF_STARTS_WITH))) := by
    intro n
    funext r
    exact survives_first_token K greedy n r
  have hmk : firstSuggestion K part =
      (fun r => ⟨if part then K.getSymbolValue r 1 else K.getSymbolValue r 0,
        wrapInt (K.VARNAM_TOKEN_BASIC_WEIGHT - r.weight), 0⟩) := by
    funext r
    cases part <;> rfl
  have hstep : ∀ n : Nat, tokenStep K varnam greedy part n 0 t [] =
      some ((t.token.filter (fun r =>
          decide (¬ (greedy = true ∧ r.matchType = K.VARNAM_MATCH_POSSIBILITY) ∧
            (r.acceptCondition = K.VARNAM_TOKEN_ACCEPT_ALL ∨
              r.acceptCondition = K.VARNAM_TOKEN_ACCEPT_IF_STARTS_WITH)))).map
        (fun r => ⟨if part then K.getSymbolValue r 1 else K.getSymbolValue r 0,
          wrapInt (K.VARNAM_TOKEN_BASIC_WEIGHT - r.weight), 0⟩)) := by
    intro n
    unfold tokenStep
    rw [if_pos hsym, if_pos rfl, hfilter n, hmk, List.nil_append]
  refine ⟨hstep, ?_, ?_, ?_, ?_⟩
  · simp only [tokensToSuggestions, tokensLoop, List.length_cons, hstep, Nat.zero_add]
  · simp only [tokensToSuggestions, tokensLoop, List.length_cons, hstep]
  · intro r h
    exact wrapInt_of_range _ h.1 h.2
  · intro h1 h2 r hend hmem
    have h := (List.mem_filter.mp hmem).2
    simp [hend, h1, h2] at h

/-- Witness of C18: a first token with the match `x` and a match `y` accepted at the
end of a word only. -/
theorem first_token_expansion_witness :
    (symbolToken [plainRule "x" 1, { plainRule "y" 1 with acceptCondition := 3 }]).tokenType =
      sampleConsts.VARNAM_TOKEN_SYMBOL ∧
    tokensToSuggestions sampleConsts sampleVarnam
        [symbolToken [plainRule "x" 1, { plainRule "y" 1 with acceptCondition := 3 }]]
        false false =
      some (((symbolToken [plainRule "x" 1,
            { plainRule "y" 1 with acceptCondition := 3 }]).token.filter (fun r =>
          decide (¬ (false = true ∧ r.matchType = sampleConsts.VARNAM_MATCH_POSSIBILITY) ∧
            (r.acceptCondition = sampleConsts.VARNAM_TOKEN_ACCEPT_ALL ∨
              r.acceptCondition = sampleConsts.VARNAM_TOKEN_ACCEPT_IF_STARTS_WITH)))).map
        (fun r => ⟨if false then sampleConsts.getSymbolValue r 1
            else sampleConsts.getSymbolValue r 0,
          wrapInt (sampleConsts.VARNAM_TOKEN_BASIC_WEIGHT - r.weight), 0⟩)) ∧
    wrapInt (sampleConsts.VARNAM_TOKEN_BASIC_WEIGHT - (plainRule "x" 1).weight) =
      sampleConsts.VARNAM_TOKEN_BASIC_WEIGHT - (plainRule "x" 1).weight ∧
    { plainRule "y" 1 with acceptCondition := 3 } ∉
      (symbolToken [plainRule "x" 1,
          { plainRule "y" 1 with acceptCondition := 3 }]).token.filter (fun r =>
        decide (¬ (false = true ∧ r.matchType = sampleConsts.VARNAM_MATCH_POSSIBILITY) ∧
          (r.acceptCondition = sampleConsts.VARNAM_TOKEN_ACCEPT_ALL ∨
            r.acceptCondition = sampleConsts.VARNAM_TOKEN_ACCEPT_IF_STARTS_WITH))) :=
  ⟨by decide,
    (first_token_expansion sampleConsts sampleVarnam false false
      (symbolToken [plainRule "x" 1, { plainRule "y" 1 with acceptCondition := 3 }]) []
      (by decide)).2.2.1,
    (first_token_expansion sampleConsts sampleVarnam false false
      (symbolToken [plainRule "x" 1, { plainRule "y" 1 with acceptCondition := 3 }]) []
      (by decide)).2.2.2.1 (plainRule "x" 1) ⟨by decide, by decide⟩,
    (first_token_expansion sampleConsts sampleVarnam false false
      (symbolToken [plainRule "x" 1, { plainRule "y" 1 with acceptCondition := 3 }]) []
      (by decide)).2.2.2.2 (by decide) (by decide)
      { plainRule "y" 1 with acceptCondition := 3 } (by decide)⟩

/-- C19: when the first token is a character token (the token types of characters and
of symbols being different), or a symbol token none of whose matches survives,
`tokensToSuggestions` returns the empty list, whatever the tokens that follow and
the flags are. -/
theorem no_suggestion_without_first_token (K : Consts) (varnam : Varnam) (t : Token)
    (rest : List Token) (greedy part : Bool)
    (hK : K.VARNAM_TOKEN_CHAR ≠ K.VARNAM_TOKEN_SYMBOL)
    (h : t.tokenType = K.VARNAM_TOKEN_CHAR ∨
      (t.tokenType = K.VARNAM_TOKEN_SYMBOL ∧
        ∀ r ∈ t.token, survives K greedy (acceptState K 0 (rest.length + 1)) r = false)) :
    tokensToSuggestions K varnam (t :: rest) greedy part = some [] := by
  have hstep : tokenStep K varnam greedy part (rest.length + 1) 0 t [] = some [] := by
    unfold tokenStep
    rcases h with hch | ⟨hsym, hnone⟩
    · have hns : ¬ t.tokenType = K.VARNAM_TOKEN_SYMBOL := fun hc => hK (hch.symm.trans hc)
      rw [if_neg hns, if_pos hch]
      rfl
    · rw [if_pos hsym, if_pos rfl]
      have hf : t.token.filter (survives K greedy (acceptState K 0 (rest.length + 1))) = [] := by
        rw [List.filter_eq_nil_iff]
        intro r hr
        rw [hnone r hr]
        exact Bool.false_ne_true
      rw [hf]
      rfl
  simp only [tokensToSuggestions, tokensLoop, List.length_cons, hstep]
  exact tokensLoop_nil K varnam greedy part _ rest 1 (by omega)

/-- Witness of C19: a character token, and a symbol token whose only match is accepted
at the end of a word only, each followed by a symbol token without any match. -/
theorem no_suggestion_without_first_token_witness :
    tokensToSuggestions sampleConsts sampleVarnam
        ((⟨1, [], "-"⟩ : Token) :: [symbolToken []]) true false = some [] ∧
    tokensToSuggestions sampleConsts sampleVarnam
        (symbolToken [{ plainRule "y" 1 with acceptCondition := 3 }] :: [symbolToken []])
        false true = some [] :=
  ⟨no_suggestion_without_first_token sampleConsts sampleVarnam ⟨1, [], "-"⟩
      [symbolToken []] true false (by decide) (Or.inl (by decide)),
    no_suggestion_without_first_token sampleConsts sampleVarnam
      (symbolToken [{ plainRule "y" 1 with acceptCondition := 3 }]) [symbolToken []]
      false true (by decide) (Or.inr ⟨by decide, by decide⟩)⟩

/-! ## The positional term: C20 -/

theorem extendInPlace_wrapShift (K : Consts) (varnam : Varnam) (n i : Nat) (c : Int)
    (firstToken : Symbol) (s : Suggestion) :
    extendInPlace K varnam n i firstToken (wrapShift c s) =
      wrapShift (c + ((n : Int) - (i : Int)))
        (extendInPlaceNoPosition K varnam i firstToken s) := by
  simp only [extendInPlace, extendInPlaceNoPosition, wrapShift, getNewValueAndWeight,
    getNewValueAndWeightNoPosition]
  congr 1
  rw [wrapInt_add_wrapInt]
  have e : wrapInt (s.Weight + c) - firstToken.weight + ((n : Int) - (i : Int)) +
      (K.VARNAM_MATCH_POSSIBILITY - firstToken.matchType) =
      wrapInt (s.Weight + c) + (- firstToken.weight + ((n : Int) - (i : Int)) +
      (K.VARNAM_MATCH_POSSIBILITY - firstToken.matchType)) := by ring
  rw [e, wrapInt_add_wrapInt]
  congr 1
  ring

theorem cloneWith_wrapShift (K : Consts) (varnam : Varnam) (n i : Nat) (c : Int)
    (s : Suggestion) (possibility : Symbol) :
    cloneWith K varnam n i (wrapShift c s) possibility =
      wrapShift (c + ((n : Int) - (i : Int)))
        (cloneWithNoPosition K varnam i s possibility) := by
  simp only [cloneWith, cloneWithNoPosition, wrapShift, getNewValueAndWeight,
    getNewValueAndWeightNoPosition]
  congr 1
  rw [wrapInt_add_wrapInt]
  have e : wrapInt (s.Weight + c) - possibility.weight + ((n : Int) - (i : Int)) +
      (K.VARNAM_MATCH_POSSIBILITY - possibility.matchType) =
      wrapInt (s.Weight + c) + (- possibility.weight + ((n : Int) - (i : Int)) +
      (K.VARNAM_MATCH_POSSIBILITY - possibility.matchType)) := by ring
  rw [e, wrapInt_add_wrapInt]
  congr 1
  ring

theorem extendResultsNoPosition_cons (K : Consts) (varnam : Varnam) (greedy : Bool)
    (n i : Nat) (t : Token) (firstToken : Symbol) (others : List Symbol)
    (results : List Suggestion) (ht : t.token = firstToken :: others) :
    extendResultsNoPosition K varnam greedy n i t results =
      some (results.map (extendInPlaceNoPosition K varnam i firstToken) ++
        results.flatMap (fun result =>
          (others.filter (survives K greedy (acceptState K i n))).map
            (cloneWithNoPosition K varnam i result))) := by
  cases results with
  | nil => simp [extendResultsNoPosition]
  | cons a as => simp [extendResultsNoPosition, ht]

theorem flatMap_clone_wrapShift (K : Consts) (varnam : Varnam) (n i : Nat) (c : Int)
    (survivors : List Symbol) :
    ∀ rs : List Suggestion,
      (rs.map (wrapShift c)).flatMap (fun result =>
          survivors.map (cloneWith K varnam n i result)) =
        (rs.flatMap (fun result =>
          survivors.map (cloneWithNoPosition K varnam i result))).map
          (wrapShift (c + ((n : Int) - (i : Int)))) := by
  intro rs
  induction rs with
  | nil => rfl
  | cons b bs ih =>
    simp only [List.map_cons, List.flatMap_cons, List.map_append, List.map_map]
    refine congrArg₂ _ ?_ ih
    apply List.map_congr_left
    intro p _
    exact cloneWith_wrapShift K varnam n i c b p

theorem tokenStep_wrapShift (K : Consts) (varnam : Varnam) (greedy part : Bool) (n i : Nat)
    (hi : i ≠ 0) (t : Token) (c : Int) (rs : List Suggestion) :
    tokenStep K varnam greedy part n i t (rs.map (wrapShift c)) =
      (tokenStepNoPosition K varnam greedy part n i t rs).map
        (List.map (wrapShift (c +
          (if t.tokenType = K.VARNAM_TOKEN_SYMBOL ∧ i ≠ 0 then (n : Int) - (i : Int)
            else 0)))) := by
  by_cases hsym : t.tokenType = K.VARNAM_TOKEN_SYMBOL
  · have hd : (if t.tokenType = K.VARNAM_TOKEN_SYMBOL ∧ i ≠ 0 then (n : Int) - (i : Int)
        else 0) = (n : Int) - (i : Int) := if_pos ⟨hsym, hi⟩
    have h1 : tokenStep K varnam greedy part n i t (rs.map (wrapShift c)) =
        extendResults K varnam greedy n i t (rs.map (wrapShift c)) := by
      unfold tokenStep
      rw [if_pos hsym, if_neg hi]
    have h2 : tokenStepNoPosition K varnam greedy part n i t rs =
        extendResultsNoPosition K varnam greedy n i t rs := by
      unfold tokenStepNoPosition
      rw [if_pos hsym, if_neg hi]
    rw [hd, h1, h2]
    cases ht : t.token with
    | nil =>
      cases rs with
      | nil => rfl
      | cons a as => simp [extendResults, extendResultsNoPosition, ht]
    | cons firstToken others =>
      rw [extendResults_cons K varnam greedy n i t firstToken others _ ht,
        extendResultsNoPosition_cons K varnam greedy n i t firstToken others rs ht,
        flatMap_clone_wrapShift]
      simp only [Option.map_some', List.map_append, List.map_map, Option.some.injEq]
      refine congrArg₂ _ ?_ rfl
      apply List.map_congr_left
      intro s _
      exact extendInPlace_wrapShift K varnam n i c firstToken s
  · have hd : (if t.tokenType = K.VARNAM_TOKEN_SYMBOL ∧ i ≠ 0 then (n : Int) - (i : Int)
        else 0) = 0 := if_neg (fun h => hsym h.1)
    rw [hd, add_zero]
    by_cases hch : t.tokenType = K.VARNAM_TOKEN_CHAR
    · have h1 : tokenStep K varnam greedy part n i t (rs.map (wrapShift c)) =
          some ((rs.map (wrapShift c)).map
            (fun s => { s with Word := s.Word ++ t.character })) := by
        unfold tokenStep
        rw [if_neg hsym, if_pos hch]
      have h2 : tokenStepNoPosition K varnam greedy part n i t rs =
          some (rs.map (fun s => { s with Word := s.Word ++ t.character })) := by
        unfold tokenStepNoPosition
        rw [if_neg hsym, if_pos hch]
      rw [h1, h2]
      simp only [Option.map_some', List.map_map, Option.some.injEq]
      apply List.map_congr_left
      intro s _
      rfl
    · have h1 : tokenStep K varnam greedy part n i t (rs.map (wrapShift c)) =
          some (rs.map (wrapShift c)) := by
        unfold tokenStep
        rw [if_neg hsym, if_neg hch]
      have h2 : tokenStepNoPosition K varnam greedy part n i t rs = some rs := by
        unfold tokenStepNoPosition
        rw [if_neg hsym, if_neg hch]
      rw [h1, h2]
      rfl

theorem tokensLoop_wrapShift (K : Consts) (varnam : Varnam) (greedy part : Bool) (n : Nat)
    (rest : List Token) :
    ∀ (i : Nat) (c : Int) (rs : List Suggestion), i ≠ 0 →
      tokensLoop K varnam greedy part n i rest (rs.map (wrapShift c)) =
        (tokensLoopNoPosition K varnam greedy part n i rest rs).map
          (List.map (wrapShift (c + positionalConstantFrom K n i rest))) := by
  induction rest with
  | nil =>
    intro i c rs _
    simp [tokensLoop, tokensLoopNoPosition, positionalConstantFrom]
  | cons t rest ih =>
    intro i c rs hi
    simp only [tokensLoop, tokensLoopNoPosition, positionalConstantFrom]
    rw [tokenStep_wrapShift K varnam greedy part n i hi t c rs]
    cases tokenStepNoPosition K varnam greedy part n i t rs with
    | none => rfl
    | some rs1 =>
      simp only [Option.map_some']
      rw [ih (i + 1) _ rs1 (by omega), add_assoc]

theorem tokenStep_zero_eq (K : Consts) (varnam : Varnam) (greedy part : Bool) (n : Nat)
    (t : Token) :
    tokenStepNoPosition K varnam greedy part n 0 t [] =
      tokenStep K varnam greedy part n 0 t [] := by
  unfold tokenStep tokenStepNoPosition
  by_cases hsym : t.tokenType = K.VARNAM_TOKEN_SYMBOL
  · rw [if_pos hsym, if_pos rfl, if_pos hsym, if_pos rfl]
  · rw [if_neg hsym, if_neg hsym]

theorem tokenStep_zero_wrapShift (K : Consts) (varnam : Varnam) (greedy part : Bool)
    (n : Nat) (t : Token) :
    ∃ l0 : List Suggestion, tokenStep K varnam greedy part n 0 t [] = some l0 ∧
      l0.map (wrapShift 0) = l0 := by
  unfold tokenStep
  by_cases hsym : t.tokenType = K.VARNAM_TOKEN_SYMBOL
  · rw [if_pos hsym, if_pos rfl]
    refine ⟨_, rfl, ?_⟩
    simp only [List.nil_append, List.map_map]
    apply List.map_congr_left
    intro r _
    simp only [Function.comp, wrapShift, firstSuggestion]
    congr 1
    rw [wrapInt_add_wrapInt, add_zero]
  · rw [if_neg hsym]
    by_cases hch : t.tokenType = K.VARNAM_TOKEN_CHAR
    · rw [if_pos hch]
      exact ⟨_, rfl, rfl⟩
    · rw [if_neg hch]
      exact ⟨_, rfl, rfl⟩

theorem tokensToSuggestions_wrapShift (K : Consts) (varnam : Varnam) (tokens : List Token)
    (greedy part : Bool) :
    tokensToSuggestions K varnam tokens greedy part =
      (tokensToSuggestionsNoPosition K varnam tokens greedy part).map
        (List.map (wrapShift (positionalConstant K tokens))) := by
  cases tokens with
  | nil => rfl
  | cons t rest =>
    obtain ⟨l0, hl0, hmap⟩ := tokenStep_zero_wrapShift K varnam greedy part (rest.length + 1) t
    simp only [tokensToSuggestions, tokensToSuggestionsNoPosition, tokensLoop,
      tokensLoopNoPosition, List.length_cons, tokenStep_zero_eq, hl0, positionalConstant,
      positionalConstantFrom, Nat.zero_add]
    have h := tokensLoop_wrapShift K varnam greedy part (rest.length + 1) rest 1 0 l0
      (by omega)
    rw [hmap] at h
    rw [h]
    simp

/-- C20, evaluated on a first token with the matches `x` of weight `-2^63 + 11` and `y`
of weight 0, followed by a token with the single possibility match `p` of weight 0:
the first token gives `x` the weight `2^63 - 1`, the greatest `int`, and the
positional term 1 of the second token wraps it to `-2^63`. With the term the result
is `xp` of weight `-2^63` and `yp` of weight 11, ranked `yp`, `xp`; without the
term it is `xp` of weight `2^63 - 1` and `yp` of weight 10, ranked `xp`, `yp`. The
two weights do not differ by one and the same constant and the two rankings differ. -/
theorem positional_term_overflow_changes_ranking :
    tokensToSuggestions sampleConsts sampleVarnam
        [symbolToken [plainRule "x" (-(2 ^ 63) + 11), plainRule "y" 0],
         symbolToken [{ plainRule "p" 0 with matchType := 2 }]] false false =
      some [⟨"xp", -(2 ^ 63), 0⟩, ⟨"yp", 11, 0⟩] ∧
    tokensToSuggestionsNoPosition sampleConsts sampleVarnam
        [symbolToken [plainRule "x" (-(2 ^ 63) + 11), plainRule "y" 0],
         symbolToken [{ plainRule "p" 0 with matchType := 2 }]] false false =
      some [⟨"xp", 2 ^ 63 - 1, 0⟩, ⟨"yp", 10, 0⟩] ∧
    sortSuggestions [⟨"xp", -(2 ^ 63), 0⟩, ⟨"yp", 11, 0⟩] =
      [⟨"yp", 11, 0⟩, ⟨"xp", -(2 ^ 63), 0⟩] ∧
    sortSuggestions [⟨"xp", 2 ^ 63 - 1, 0⟩, ⟨"yp", 10, 0⟩] =
      [⟨"xp", 2 ^ 63 - 1, 0⟩, ⟨"yp", 10, 0⟩] ∧
    (-(2 ^ 63) : Int) - (2 ^ 63 - 1) ≠ 11 - 10 := by
  decide

/-- C20 as amended: when every symbol token has at least one match, both
`tokensToSuggestions` and its variant without the term `(tokensLength - position)`
return, with the same texts in the same order, and every weight of the first is the
weight of the second plus the positional constant of the token sequence in `int`
arithmetic. When adding that constant to the weights of the variant does not
overflow `int`, every weight differs from its counterpart by exactly that constant
and `sortSuggestions` orders both results identically: the ranked first result is
the ranked second result with the constant added to every weight. -/
theorem positional_term_shifts_weights (K : Consts) (varnam : Varnam) (tokens : List Token)
    (greedy part : Bool)
    (hne : ∀ t ∈ tokens, t.tokenType = K.VARNAM_TOKEN_SYMBOL → t.token ≠ []) :
    ∃ out flat : List Suggestion,
      tokensToSuggestions K varnam tokens greedy part = some out ∧
      tokensToSuggestionsNoPosition K varnam tokens greedy part = some flat ∧
      out.map Suggestion.Word = flat.map Suggestion.Word ∧
      out = flat.map (wrapShift (positionalConstant K tokens)) ∧
      ((∀ s ∈ flat, InIntRange (s.Weight + positionalConstant K tokens)) →
        out = flat.map (shiftWeight (positionalConstant K tokens)) ∧
        sortSuggestions out =
          (sortSuggestions flat).map (shiftWeight (positionalConstant K tokens))) := by
  obtain ⟨g, f, hg, hf, -⟩ := tokensLoop_greedy_subset K varnam part tokens.length tokens
    hne 0 [] [] (fun _ h => h)
  have hout : ∃ out, tokensToSuggestions K varnam tokens greedy part = some out := by
    cases greedy
    · exact ⟨f, hf⟩
    · exact ⟨g, hg⟩
  obtain ⟨out, hout⟩ := hout
  have hrel := tokensToSuggestions_wrapShift K varnam tokens greedy part
  rw [hout] at hrel
  cases hflat : tokensToSuggestionsNoPosition K varnam tokens greedy part with
  | none => simp [hflat] at hrel
  | some flat =>
    simp only [hflat, Option.map_some', Option.some.injEq] at hrel
    refine ⟨out, flat, hout, rfl, ?_, hrel, ?_⟩
    · rw [hrel, List.map_map]
      apply List.map_congr_left
      intro s _
      rfl
    · intro hrange
      have hexact : out = flat.map (shiftWeight (positionalConstant K tokens)) := by
        rw [hrel]
        apply List.map_congr_left
        intro s hs
        simp only [wrapShift, shiftWeight]
        rw [wrapInt_of_range _ (hrange s hs).1 (hrange s hs).2]
      refine ⟨hexact, ?_⟩
      rw [hexact]
      exact sliceStable_map (shiftWeight (positionalConstant K tokens)) sortLess sortLess
        (by intro a b; simp [sortLess, shiftWeight]) flat

/-- Witness of the amended C20: two symbol tokens with two matches each. -/
theorem positional_term_shifts_weights_witness :
    (∀ t ∈ [symbolToken [plainRule "x" 1, plainRule "y" 2],
          symbolToken [plainRule "p" 1, { plainRule "q" 2 with matchType := 2 }]],
        t.tokenType = sampleConsts.VARNAM_TOKEN_SYMBOL → t.token ≠ []) ∧
    ∃ out flat : List Suggestion,
      tokensToSuggestions sampleConsts sampleVarnam
          [symbolToken [plainRule "x" 1, plainRule "y" 2],
            symbolToken [plainRule "p" 1, { plainRule "q" 2 with matchType := 2 }]]
          false false = some out ∧
      tokensToSuggestionsNoPosition sampleConsts sampleVarnam
          [symbolToken [plainRule "x" 1, plainRule "y" 2],
            symbolToken [plainRule "p" 1, { plainRule "q" 2 with matchType := 2 }]]
          false false = some flat ∧
      out.map Suggestion.Word = flat.map Suggestion.Word ∧
      out = flat.map (wrapShift (positionalConstant sampleConsts
          [symbolToken [plainRule "x" 1, plainRule "y" 2],
            symbolToken [plainRule "p" 1, { plainRule "q" 2 with matchType := 2 }]])) ∧
      ((∀ s ∈ flat, InIntRange (s.Weight + positionalConstant sampleConsts
          [symbolToken [plainRule "x" 1, plainRule "y" 2],
            symbolToken [plainRule "p" 1, { plainRule "q" 2 with matchType := 2 }]])) →
        out = flat.map (shiftWeight (positionalConstant sampleConsts
          [symbolToken [plainRule "x" 1, plainRule "y" 2],
            symbolToken [plainRule "p" 1, { plainRule "q" 2 with matchType := 2 }]])) ∧
        sortSuggestions out =
          (sortSuggestions flat).map (shiftWeight (positionalConstant sampleConsts
            [symbolToken [plainRule "x" 1, plainRule "y" 2],
              symbolToken [plainRule "p" 1, { plainRule "q" 2 with matchType := 2 }]]))) :=
  ⟨by decide, positional_term_shifts_weights sampleConsts sampleVarnam _ false false
    (by decide)⟩


end Govarnam
